import Mathlib

/-!
# FiltersAggregation (olivere/elastic.v3, `search_aggs_bucket_filters.go`)

A shallow embedding of the `FiltersAggregation` builder and of its `Source`
method, followed by theorems about what `Source` returns.

Modelling conventions

* Go's `interface{}` is the JSON-like tree `Value`; Go's `nil` interface value
  is `Value.null`.
* Go's `error` is `GoError`; a Go result pair `(interface{}, error)` is a Lean
  pair `Value × Option GoError`, a `nil` error being `none`.
* `Query` and `Aggregation` are Go interfaces with the single method
  `Source() (interface{}, error)`. Within one call of the builder's `Source`
  a value of the interface is modelled by the pair that this method returns in
  that call (the values held by a builder are taken to be non-nil). Over
  several calls a held value is modelled by the pair it returns in each call
  (`HeldQuery`, `HeldAggregation`): nothing makes an implementation return the
  same pair twice, and a `*FiltersAggregation` stored as a sub-aggregation does
  not, since its result depends on the order of its own `range`.
* A Go `map[string]T` is kept in a canonical form: its entries sorted by key,
  keys pairwise distinct, so that two maps with the same entries are equal.
  The order in which `range` visits a map is not fixed by the language, so the
  order of a `range` loop over a map is an explicit argument of the model.
-/

namespace Elastic

/-- Go errors, identified by their message. -/
abbrev GoError := String

/-- JSON-like values: what a Go `interface{}` holds in a request body. -/
inductive Value where
  | null : Value
  | bool : Bool → Value
  | num : Int → Value
  | str : String → Value
  | arr : List Value → Value
  | obj : List (String × Value) → Value

/-- The pair `(interface{}, error)` returned by a `Source()` method. -/
abbrev GoResult := Value × Option GoError

/-- The `Query` interface: one method `Source() (interface{}, error)`. -/
structure Query where
  Source : GoResult

/-- The `Aggregation` interface: one method `Source() (interface{}, error)`. -/
structure Aggregation where
  Source : GoResult

/-! ## Go maps in canonical form -/

/-- Lexicographic order on code point lists. -/
def lexLt : List Nat → List Nat → Bool
  | _, [] => false
  | [], _ :: _ => true
  | a :: as, b :: bs => decide (a < b) || (decide (a = b) && lexLt as bs)

/-- The strict total order on keys used to keep map entries canonical:
lexicographic on code points. Go maps have no order of their own; this one
only fixes a representative for each map. -/
def keyLt (a b : String) : Bool :=
  lexLt (a.data.map Char.toNat) (b.data.map Char.toNat)

/-- The entries of a map are in canonical form: strictly increasing keys. -/
def KeysSorted {V : Type} (l : List (String × V)) : Prop :=
  l.Pairwise (fun x y => keyLt x.1 y.1 = true)

instance instDecidableKeysSorted {V : Type} (l : List (String × V)) :
    Decidable (KeysSorted l) := by
  unfold KeysSorted; infer_instance

/-- Map assignment `m[k] = v` on the canonical entry list: the entry of `k` is
overwritten when there is one, and put at its place in key order otherwise. -/
def insertEntry {V : Type} (k : String) (v : V) : List (String × V) → List (String × V)
  | [] => [(k, v)]
  | (k0, v0) :: rest =>
    if keyLt k k0 then (k, v) :: (k0, v0) :: rest
    else if k = k0 then (k, v) :: rest
    else (k0, v0) :: insertEntry k v rest

/-- Map indexing `m[k]` with the comma-ok flag, on an entry list. -/
def lookupEntry {V : Type} (k : String) : List (String × V) → Option V
  | [] => none
  | (k0, v0) :: rest => if k = k0 then some v0 else lookupEntry k rest

/-- A Go `map[string]V`, as its list of entries. The maps a program can build
are those whose entries satisfy `KeysSorted`. -/
abbrev GoMap (V : Type) := List (String × V)

/-- Go's `len(m)` for a map. -/
def GoMap.len {V : Type} (m : GoMap V) : Nat := m.length

/-- Go's `len(m)` for a map that may be `nil` (`none`): a nil map has length 0. -/
def nilableLen {V : Type} : Option (GoMap V) → Nat
  | none => 0
  | some m => m.len

/-- A map of type `map[string]interface{}` stored in an `interface{}`; a nil
map is the JSON `null`. -/
def mapValue : Option (GoMap Value) → Value
  | none => Value.null
  | some m => Value.obj m

/-! ## The builder -/

/-- The struct `FiltersAggregation`. Field `meta` may hold a nil map (`none`);
`subAggregations` is the map allocated by `NewFiltersAggregation`, a map when
its entries satisfy `KeysSorted`. -/
structure FiltersAggregation where
  filters : List Query
  subAggregations : GoMap Aggregation
  meta : Option (GoMap Value)

/-- Constructor `NewFiltersAggregation`: empty slice, empty map, nil meta. -/
def NewFiltersAggregation : FiltersAggregation :=
  { filters := [], subAggregations := [], meta := none }

/-- Method `Filter`: `a.filters = append(a.filters, filter)`. -/
def FiltersAggregation.Filter (a : FiltersAggregation) (filter : Query) :
    FiltersAggregation :=
  { a with filters := a.filters ++ [filter] }

/-- Method `Filters`, the variadic arguments given as a list: appends them
when `len(filters) > 0`. -/
def FiltersAggregation.Filters (a : FiltersAggregation) (filters : List Query) :
    FiltersAggregation :=
  if filters.length > 0 then { a with filters := a.filters ++ filters } else a

/-- Method `SubAggregation`: `a.subAggregations[name] = subAggregation`. -/
def FiltersAggregation.SubAggregation (a : FiltersAggregation) (name : String)
    (subAggregation : Aggregation) : FiltersAggregation :=
  { a with subAggregations := insertEntry name subAggregation a.subAggregations }

/-- Method `Meta`: `a.meta = metaData` (the argument may be a nil map). -/
def FiltersAggregation.Meta (a : FiltersAggregation) (metaData : Option (GoMap Value)) :
    FiltersAggregation :=
  { a with meta := metaData }

/-- The loop `for i, filter := range a.filters` of `Source`, from index `i` on:
`arr[i] = src` for each filter, leaving at the first `err != nil`. -/
def filtersLoop : List Query → Nat → List Value → Except GoError (List Value)
  | [], _, arr => .ok arr
  | filter :: rest, i, arr =>
    match filter.Source with
    | (src, none) => filtersLoop rest (i + 1) (arr.set i src)
    | (_, some err) => .error err

/-- The loop `for name, aggregate := range a.subAggregations` of `Source`, the
entries taken in the order the `range` statement yields them:
`aggsMap[name] = src` for each entry, leaving at the first `err != nil`. -/
def aggsLoop : List (String × Aggregation) → GoMap Value → Except GoError (GoMap Value)
  | [], aggsMap => .ok aggsMap
  | (name, aggregate) :: rest, aggsMap =>
    match aggregate.Source with
    | (src, none) => aggsLoop rest (insertEntry name src aggsMap)
    | (_, some err) => .error err

/-- The last block of `Source`: `if len(a.meta) > 0 { source["meta"] = a.meta }`. -/
def FiltersAggregation.addMeta (a : FiltersAggregation) (source : GoMap Value) :
    GoMap Value :=
  if nilableLen a.meta > 0 then insertEntry "meta" (mapValue a.meta) source else source

/-- Method `Source`. `order` is the sequence of entries that ranging over
`a.subAggregations` yields in this call (a permutation of the map's entries,
see `RangeOrder`). The maps `filters` and `aggsMap` are stored in `source` by
reference before they are filled; the model stores them once filled. -/
def FiltersAggregation.Source (a : FiltersAggregation)
    (order : List (String × Aggregation)) : GoResult :=
  let source : GoMap Value := []
  let filters : GoMap Value := []
  let arr := List.replicate a.filters.length Value.null
  match filtersLoop a.filters 0 arr with
  | .error err => (Value.null, some err)
  | .ok arr =>
    let filters := insertEntry "filters" (Value.arr arr) filters
    let source := insertEntry "filters" (Value.obj filters) source
    if a.subAggregations.len > 0 then
      match aggsLoop order [] with
      | .error err => (Value.null, some err)
      | .ok aggsMap =>
        let source := insertEntry "aggregations" (Value.obj aggsMap) source
        (Value.obj (a.addMeta source), none)
    else (Value.obj (a.addMeta source), none)

/-- The orders in which a `range` over `a.subAggregations` may yield the
entries: each entry exactly once, in any order. -/
def RangeOrder (a : FiltersAggregation) (order : List (String × Aggregation)) : Prop :=
  order.Perm a.subAggregations

/-- A `Query` held by a builder, over the calls made on the builder: the pair
its `Source()` returns in each call, the calls being numbered. -/
structure HeldQuery where
  Source : Nat → GoResult

/-- An `Aggregation` held by a builder, over the calls made on the builder: the
pair its `Source()` returns in each call, the calls being numbered. -/
structure HeldAggregation where
  Source : Nat → GoResult

/-- The struct `FiltersAggregation`, its interface values taken over several
calls. -/
structure HeldBuilder where
  filters : List HeldQuery
  subAggregations : GoMap HeldAggregation
  meta : Option (GoMap Value)

/-- The builder as the call numbered `call` of its `Source` sees it: each held
value stands for the pair its `Source()` returns in that call. -/
def HeldBuilder.view (b : HeldBuilder) (call : Nat) : FiltersAggregation :=
  { filters := b.filters.map (fun q => ⟨q.Source call⟩),
    subAggregations := b.subAggregations.map (fun e => (e.1, ⟨e.2.Source call⟩)),
    meta := b.meta }

/-- The call numbered `call` of `b.Source()` as a step on the builder: the
result, and the builder after the call. `Source` assigns to no field of its
receiver. -/
def HeldBuilder.callSource (b : HeldBuilder) (call : Nat)
    (order : List (String × Aggregation)) : GoResult × HeldBuilder :=
  ((b.view call).Source order, b)

/-- A builder all of whose held values return the same pair in every call. -/
def FiltersAggregation.hold (a : FiltersAggregation) : HeldBuilder :=
  { filters := a.filters.map (fun f => ⟨fun _ => f.Source⟩),
    subAggregations := a.subAggregations.map (fun e => (e.1, ⟨fun _ => e.2.Source⟩)),
    meta := a.meta }

/-- A `*FiltersAggregation` stored as a sub-aggregation of another builder: in
each call its `Source()` ranges over its own map, in the order `orders call`. -/
def FiltersAggregation.asAggregation (inner : FiltersAggregation)
    (orders : Nat → List (String × Aggregation)) : HeldAggregation :=
  ⟨fun call => inner.Source (orders call)⟩

/-- The value stored under `key` in a result that is a mapping. -/
def Value.get? (key : String) : Value → Option Value
  | Value.obj m => lookupEntry key m
  | _ => none

/-- The keys of a result that is a mapping. -/
def Value.keys : Value → List String
  | Value.obj m => m.map Prod.fst
  | _ => []

/-! ## Vocabulary of the statements -/

/-- The error of the first result that carries one, if any. -/
def firstError : List GoResult → Option GoError
  | [] => none
  | (_, some err) :: _ => some err
  | (_, none) :: rest => firstError rest

/-- The serialized form of every filter of a list, in order. -/
def serializedFilters (fs : List Query) : List Value :=
  fs.map (fun f => f.Source.1)

/-- The serialized form of every entry of a sub-aggregation map, by name. -/
def serializedAggs (m : GoMap Aggregation) : GoMap Value :=
  m.map (fun e => (e.1, e.2.Source.1))

/-- The mapping `{"filters": {"filters": arr}}`. -/
def filtersDoc (arr : List Value) : GoMap Value :=
  [("filters", Value.obj [("filters", Value.arr arr)])]

/-- A call that adds filters: `Filter(f)` or `Filters(fs...)`. -/
inductive AddCall where
  | one : Query → AddCall
  | many : List Query → AddCall

/-- The builder after a filter-adding call. -/
def AddCall.apply (a : FiltersAggregation) : AddCall → FiltersAggregation
  | AddCall.one f => a.Filter f
  | AddCall.many fs => a.Filters fs

/-- The filters a call adds, in the order given. -/
def AddCall.added : AddCall → List Query
  | AddCall.one f => [f]
  | AddCall.many fs => fs

/-- The filters added by a sequence of calls, in the order added. -/
def addedFilters : List AddCall → List Query
  | [] => []
  | c :: cs => c.added ++ addedFilters cs

/-- A builder made by `NewFiltersAggregation` and then only given filters. -/
def populate (calls : List AddCall) : FiltersAggregation :=
  calls.foldl AddCall.apply NewFiltersAggregation

/-- A term query `{"term": {"body": v}}`, whose `Source()` succeeds. -/
def termQuery (v : String) : Query :=
  ⟨(Value.obj [("term", Value.obj [("body", Value.str v)])], none)⟩

/-- A query whose `Source()` fails with error `e`. -/
def failingQuery (e : GoError) : Query := ⟨(Value.null, some e)⟩

/-- An aggregation whose `Source()` succeeds with `{"max": {"field": f}}`. -/
def maxAgg (f : String) : Aggregation :=
  ⟨(Value.obj [("max", Value.obj [("field", Value.str f)])], none)⟩

/-- An aggregation whose `Source()` fails with error `e`. -/
def failingAgg (e : GoError) : Aggregation := ⟨(Value.null, some e)⟩

/-- A builder holding two filters that both fail, with different errors. -/
def twoFailingFilters : FiltersAggregation :=
  (NewFiltersAggregation.Filter (failingQuery "E1")).Filter (failingQuery "E2")

/-- A builder holding a good filter, then a failing one, then a good one, and
a failing sub-aggregation and metadata. -/
def failingSecondFilter : FiltersAggregation :=
  (((NewFiltersAggregation.Filters
    [termQuery "error", failingQuery "E1", termQuery "warning"]).SubAggregation
      "errors" (failingAgg "E2")).Meta (some [("color", Value.str "blue")]))

/-- A builder with two filters, the sub-aggregations `"errors"` and `"count"`
(stored in that order) and metadata; everything serializes. -/
def fullBuilder : FiltersAggregation :=
  ((((NewFiltersAggregation.Filter (termQuery "error")).Filter
    (termQuery "warning")).SubAggregation "errors" (maxAgg "level")).SubAggregation
      "count" (maxAgg "n")).Meta (some [("color", Value.str "blue")])

/-- A builder with no filter and two sub-aggregations, `"errors"` and
`"count"`, that fail with different errors. -/
def twoFailingAggs : FiltersAggregation :=
  (NewFiltersAggregation.SubAggregation "errors" (failingAgg "E1")).SubAggregation
    "count" (failingAgg "E2")

/-- A builder with a good filter and two sub-aggregations, `"errors"` failing
and `"count"` serializing. -/
def oneFailingAgg : FiltersAggregation :=
  ((NewFiltersAggregation.Filter (termQuery "error")).SubAggregation
    "errors" (failingAgg "E1")).SubAggregation "count" (maxAgg "n")

/-- A builder with a good filter and two sub-aggregations, `"errors"` and
`"count"`, that fail with different errors. -/
def goodFilterTwoFailingAggs : FiltersAggregation :=
  ((NewFiltersAggregation.Filter (termQuery "error")).SubAggregation
    "errors" (failingAgg "E1")).SubAggregation "count" (failingAgg "E2")

/-- The entries of `twoFailingAggs`, `"errors"` first. -/
def errorsFirst : List (String × Aggregation) :=
  [("errors", failingAgg "E1"), ("count", failingAgg "E2")]

/-- The entries of `twoFailingAggs`, `"count"` first. -/
def countFirst : List (String × Aggregation) :=
  [("count", failingAgg "E2"), ("errors", failingAgg "E1")]

/-- Range orders of `twoFailingAggs` that differ between call 0 and the calls
after it. -/
def alternatingOrders (call : Nat) : List (String × Aggregation) :=
  if call = 0 then errorsFirst else countFirst

/-- A builder with no filter whose only sub-aggregation, `"inner"`, is the
builder `twoFailingAggs`:
`NewFiltersAggregation().SubAggregation("inner", twoFailingAggs)`. -/
def nestedBuilder : HeldBuilder :=
  { filters := [],
    subAggregations := [("inner", twoFailingAggs.asAggregation alternatingOrders)],
    meta := none }

/-! ## The key order -/

theorem lexLt_irrefl (a : List Nat) : lexLt a a = false := by
  induction a with
  | nil => rfl
  | cons x xs ih => simp [lexLt, ih]

theorem lexLt_trans : ∀ (a b c : List Nat), lexLt a b = true → lexLt b c = true → lexLt a c = true
  | _, [], _, h, _ => by cases ‹List Nat› <;> simp [lexLt] at h
  | _, _ :: _, [], _, h => by simp [lexLt] at h
  | [], _ :: _, _ :: _, _, _ => by simp [lexLt]
  | a :: as, b :: bs, c :: cs, h1, h2 => by
    simp only [lexLt, Bool.or_eq_true, Bool.and_eq_true, decide_eq_true_eq] at h1 h2 ⊢
    rcases h1 with h1 | ⟨h1, h1'⟩ <;> rcases h2 with h2 | ⟨h2, h2'⟩
    · exact Or.inl (by omega)
    · exact Or.inl (by omega)
    · exact Or.inl (by omega)
    · exact Or.inr ⟨by omega, lexLt_trans as bs cs h1' h2'⟩

theorem lexLt_total : ∀ (a b : List Nat), lexLt a b = false → lexLt b a = false → a = b
  | [], [], _, _ => rfl
  | [], _ :: _, h, _ => by simp [lexLt] at h
  | _ :: _, [], _, h => by simp [lexLt] at h
  | a :: as, b :: bs, h1, h2 => by
    simp only [lexLt, Bool.or_eq_false_iff, Bool.and_eq_false_iff, decide_eq_false_iff_not] at h1 h2
    have hab : a = b := by omega
    subst hab
    have := lexLt_total as bs (by simpa using h1.2) (by simpa using h2.2)
    rw [this]

theorem keyCodes_injective (a b : String)
    (h : a.data.map Char.toNat = b.data.map Char.toNat) : a = b := by
  have hinj : Function.Injective Char.toNat := by
    intro x y hxy
    apply Char.ext
    apply UInt32.ext
    exact hxy
  exact String.ext (List.map_injective_iff.mpr hinj h)

theorem keyLt_irrefl (a : String) : keyLt a a = false := lexLt_irrefl _

theorem keyLt_trans {a b c : String} (h1 : keyLt a b = true) (h2 : keyLt b c = true) :
    keyLt a c = true := lexLt_trans _ _ _ h1 h2

theorem keyLt_total {a b : String} (h1 : keyLt a b = false) (h2 : keyLt b a = false) :
    a = b := keyCodes_injective a b (lexLt_total _ _ h1 h2)

theorem keyLt_asymm {a b : String} (h : keyLt a b = true) : keyLt b a = false := by
  cases hba : keyLt b a with
  | false => rfl
  | true => have := keyLt_trans h hba; rw [keyLt_irrefl] at this; cases this

theorem keyLt_ne {a b : String} (h : keyLt a b = true) : a ≠ b := by
  rintro rfl; rw [keyLt_irrefl] at h; cases h

/-! ## Map assignment and indexing -/

theorem lookupEntry_insertEntry_self {V : Type} (k : String) (v : V) (l : List (String × V)) :
    lookupEntry k (insertEntry k v l) = some v := by
  induction l with
  | nil => simp [insertEntry, lookupEntry]
  | cons e rest ih =>
    obtain ⟨k0, v0⟩ := e
    unfold insertEntry
    split_ifs with h1 h2
    · simp [lookupEntry]
    · simp [lookupEntry]
    · simp [lookupEntry, h2, ih]

theorem lookupEntry_insertEntry_of_ne {V : Type} {k k' : String} (hne : k' ≠ k) (v : V)
    (l : List (String × V)) :
    lookupEntry k' (insertEntry k v l) = lookupEntry k' l := by
  induction l with
  | nil => simp [insertEntry, lookupEntry, hne]
  | cons e rest ih =>
    obtain ⟨k0, v0⟩ := e
    unfold insertEntry
    split_ifs with h1 h2
    · simp [lookupEntry, hne]
    · subst h2; simp [lookupEntry, hne]
    · by_cases hk : k' = k0 <;> simp [lookupEntry, hk, ih]

theorem keyLt_trichotomy (a b : String) :
    keyLt a b = true ∨ a = b ∨ keyLt b a = true := by
  cases h1 : keyLt a b with
  | true => exact Or.inl rfl
  | false =>
    cases h2 : keyLt b a with
    | true => exact Or.inr (Or.inr rfl)
    | false => exact Or.inr (Or.inl (keyLt_total h1 h2))

theorem insertEntry_cons_lt {V : Type} {k k0 : String} (h : keyLt k k0 = true) (v v0 : V)
    (rest : List (String × V)) :
    insertEntry k v ((k0, v0) :: rest) = (k, v) :: (k0, v0) :: rest := by
  simp [insertEntry, h]

theorem insertEntry_cons_eq {V : Type} (k : String) (v v0 : V) (rest : List (String × V)) :
    insertEntry k v ((k, v0) :: rest) = (k, v) :: rest := by
  simp [insertEntry, keyLt_irrefl]

theorem insertEntry_cons_gt {V : Type} {k k0 : String} (h : keyLt k0 k = true) (v v0 : V)
    (rest : List (String × V)) :
    insertEntry k v ((k0, v0) :: rest) = (k0, v0) :: insertEntry k v rest := by
  simp [insertEntry, keyLt_asymm h, (keyLt_ne h).symm]

theorem insertEntry_comm {V : Type} {k1 k2 : String} (hne : k1 ≠ k2) (v1 v2 : V)
    (l : List (String × V)) :
    insertEntry k1 v1 (insertEntry k2 v2 l) = insertEntry k2 v2 (insertEntry k1 v1 l) := by
  induction l with
  | nil =>
    rcases keyLt_trichotomy k1 k2 with h | h | h
    · simp [insertEntry, h, keyLt_asymm h, hne.symm]
    · exact absurd h hne
    · simp [insertEntry, h, keyLt_asymm h, hne]
  | cons e rest ih =>
    obtain ⟨k0, v0⟩ := e
    rcases keyLt_trichotomy k1 k0 with h1 | h1 | h1 <;>
      rcases keyLt_trichotomy k2 k0 with h2 | h2 | h2
    · rcases keyLt_trichotomy k1 k2 with h | h | h
      · simp only [insertEntry_cons_lt h2, insertEntry_cons_lt h, insertEntry_cons_lt h1,
          insertEntry_cons_gt h]
      · exact absurd h hne
      · simp only [insertEntry_cons_lt h2, insertEntry_cons_gt h, insertEntry_cons_lt h1,
          insertEntry_cons_lt h]
    · subst h2
      simp only [insertEntry_cons_eq, insertEntry_cons_lt h1, insertEntry_cons_gt h1]
    · simp only [insertEntry_cons_gt h2, insertEntry_cons_lt h1,
        insertEntry_cons_gt (keyLt_trans h1 h2)]
    · subst h1
      simp only [insertEntry_cons_lt h2, insertEntry_cons_gt h2, insertEntry_cons_eq]
    · exact absurd (h1.trans h2.symm) hne
    · subst h1
      simp only [insertEntry_cons_gt h2, insertEntry_cons_eq]
    · simp only [insertEntry_cons_lt h2, insertEntry_cons_gt (keyLt_trans h2 h1),
        insertEntry_cons_gt h1]
    · subst h2
      simp only [insertEntry_cons_eq, insertEntry_cons_gt h1]
    · simp only [insertEntry_cons_gt h2, insertEntry_cons_gt h1, ih]

/-! ## The loops of `Source` -/

theorem filtersLoop_eq (fs : List Query) (pre : List Value) :
    filtersLoop fs pre.length (pre ++ List.replicate fs.length Value.null) =
      match firstError (fs.map (fun f => f.Source)) with
      | some err => .error err
      | none => .ok (pre ++ fs.map (fun f => f.Source.1)) := by
  induction fs generalizing pre with
  | nil => simp [filtersLoop, firstError]
  | cons f rest ih =>
    rcases hf : f.Source with ⟨src, _ | err⟩
    · have hset : (pre ++ List.replicate (f :: rest).length Value.null).set pre.length src =
          (pre ++ [src]) ++ List.replicate rest.length Value.null := by
        simp [List.replicate_succ]
      have := ih (pre ++ [src])
      simp only [List.length_append, List.length_singleton] at this
      simp only [filtersLoop, hf, hset, this, List.map_cons, firstError]
      cases firstError (rest.map fun f => f.Source) <;> simp
    · simp [filtersLoop, hf, firstError]

theorem aggsLoop_eq (order : List (String × Aggregation)) (aggsMap : GoMap Value) :
    aggsLoop order aggsMap =
      match firstError (order.map (fun e => e.2.Source)) with
      | some err => .error err
      | none => .ok (order.foldl (fun m e => insertEntry e.1 e.2.Source.1 m) aggsMap) := by
  induction order generalizing aggsMap with
  | nil => simp [aggsLoop, firstError]
  | cons e rest ih =>
    obtain ⟨name, aggregate⟩ := e
    rcases hf : aggregate.Source with ⟨src, _ | err⟩
    · simp only [aggsLoop, hf, ih, List.map_cons, firstError, List.foldl_cons]
    · simp [aggsLoop, hf, firstError]

/-! ## First failure of a sequence of `Source()` calls -/

theorem firstError_eq_none_iff (l : List GoResult) :
    firstError l = none ↔ ∀ r ∈ l, r.2 = none := by
  induction l with
  | nil => simp [firstError]
  | cons r rest ih =>
    obtain ⟨v, _ | err⟩ := r
    · simp [firstError, ih]
    · simp [firstError]

theorem firstError_mem {l : List GoResult} {E : GoError} (h : firstError l = some E) :
    ∃ r ∈ l, r.2 = some E := by
  induction l with
  | nil => simp [firstError] at h
  | cons r rest ih =>
    obtain ⟨v, _ | err⟩ := r
    · obtain ⟨r, hr, hE⟩ := ih (by simpa [firstError] using h)
      exact ⟨r, List.mem_cons_of_mem _ hr, hE⟩
    · refine ⟨(v, some err), List.mem_cons_self _ _, ?_⟩
      simpa [firstError] using h

theorem firstError_append_cons (pre post : List GoResult) (r : GoResult) (E : GoError)
    (hr : r.2 = some E) (hpre : ∀ g ∈ pre, g.2 = none ∨ g.2 = some E) :
    firstError (pre ++ r :: post) = some E := by
  induction pre with
  | nil =>
    obtain ⟨v, e⟩ := r
    simp only at hr
    subst hr
    simp [firstError]
  | cons g rest ih =>
    have hrest := ih (fun x hx => hpre x (List.mem_cons_of_mem _ hx))
    obtain ⟨v, _ | err⟩ := g
    · simpa [firstError] using hrest
    · rcases hpre (v, some err) (List.mem_cons_self _ _) with h | h
      · simp at h
      · simp only [Option.some.injEq] at h
        subst h
        simp [firstError]

theorem firstError_isSome_of_perm {l₁ l₂ : List GoResult} (hp : l₁.Perm l₂) :
    firstError l₁ = none ↔ firstError l₂ = none := by
  rw [firstError_eq_none_iff, firstError_eq_none_iff]
  exact ⟨fun h r hr => h r (hp.mem_iff.mpr hr), fun h r hr => h r (hp.mem_iff.mp hr)⟩

/-! ## The sub-aggregation map does not depend on the order of the range -/

theorem keysSorted_ne {V : Type} {l : List (String × V)} (hs : KeysSorted l)
    {x y : String × V} (hx : x ∈ l) (hy : y ∈ l) (hxy : x.1 = y.1) : x = y := by
  induction l with
  | nil => cases hx
  | cons e rest ih =>
    have hs' := List.pairwise_cons.mp hs
    rcases List.mem_cons.mp hx with rfl | hx' <;> rcases List.mem_cons.mp hy with rfl | hy'
    · rfl
    · exact absurd hxy (keyLt_ne (hs'.1 y hy'))
    · exact absurd hxy.symm (keyLt_ne (hs'.1 x hx'))
    · exact ih hs'.2 hx' hy'

theorem foldl_insertEntry_sorted (l : List (String × Aggregation)) (hs : KeysSorted l)
    (acc : GoMap Value) (hacc : ∀ x ∈ acc, ∀ y ∈ l, keyLt x.1 y.1 = true) :
    l.foldl (fun m e => insertEntry e.1 e.2.Source.1 m) acc = acc ++ serializedAggs l := by
  induction l generalizing acc with
  | nil => simp [serializedAggs]
  | cons e rest ih =>
    have hs' := List.pairwise_cons.mp hs
    have hins : insertEntry e.1 e.2.Source.1 acc = acc ++ [(e.1, e.2.Source.1)] := by
      clear ih
      induction acc with
      | nil => rfl
      | cons x xs ihx =>
        obtain ⟨k0, v0⟩ := x
        have hlt : keyLt k0 e.1 = true := hacc (k0, v0) (List.mem_cons_self _ _) e
          (List.mem_cons_self _ _)
        rw [insertEntry_cons_gt hlt, ihx (fun x hx y hy => hacc x (List.mem_cons_of_mem _ hx) y hy)]
        rfl
    rw [List.foldl_cons, hins, ih hs'.2]
    · simp [serializedAggs]
    · intro x hx y hy
      rcases List.mem_append.mp hx with hx | hx
      · exact hacc x hx y (List.mem_cons_of_mem _ hy)
      · simp only [List.mem_singleton] at hx
        subst hx
        exact hs'.1 y hy

theorem foldl_insertEntry_perm {order entries : List (String × Aggregation)}
    (hs : KeysSorted entries) (hp : order.Perm entries) :
    order.foldl (fun m e => insertEntry e.1 e.2.Source.1 m) [] = serializedAggs entries := by
  have hcomm : ∀ x ∈ order, ∀ y ∈ order, ∀ (z : GoMap Value),
      insertEntry y.1 y.2.Source.1 (insertEntry x.1 x.2.Source.1 z) =
        insertEntry x.1 x.2.Source.1 (insertEntry y.1 y.2.Source.1 z) := by
    intro x hx y hy z
    by_cases hxy : x.1 = y.1
    · have := keysSorted_ne hs (hp.mem_iff.mp hx) (hp.mem_iff.mp hy) hxy
      subst this
      rfl
    · exact insertEntry_comm (Ne.symm hxy) _ _ z
  rw [hp.foldl_eq' hcomm, foldl_insertEntry_sorted entries hs [] (by simp)]
  rfl

/-! ## The four ways through `Source` -/

theorem filtersLoop_start (fs : List Query) :
    filtersLoop fs 0 (List.replicate fs.length Value.null) =
      match firstError (fs.map (fun f => f.Source)) with
      | some err => .error err
      | none => .ok (serializedFilters fs) := by
  have h := filtersLoop_eq fs []
  simpa [serializedFilters] using h

theorem Source_of_filter_error {a : FiltersAggregation} {E : GoError}
    (h : firstError (a.filters.map (fun f => f.Source)) = some E)
    (order : List (String × Aggregation)) :
    a.Source order = (Value.null, some E) := by
  simp only [FiltersAggregation.Source, filtersLoop_start, h]

theorem Source_of_no_aggs {a : FiltersAggregation}
    (h : firstError (a.filters.map (fun f => f.Source)) = none)
    (hempty : a.subAggregations = []) (order : List (String × Aggregation)) :
    a.Source order = (Value.obj (a.addMeta (filtersDoc (serializedFilters a.filters))), none) := by
  simp [FiltersAggregation.Source, filtersLoop_start, h, hempty, GoMap.len, filtersDoc,
    insertEntry]

theorem Source_of_agg_error {a : FiltersAggregation} {order : List (String × Aggregation)}
    {E : GoError} (h : firstError (a.filters.map (fun f => f.Source)) = none)
    (hne : a.subAggregations ≠ [])
    (hagg : firstError (order.map (fun e => e.2.Source)) = some E) :
    a.Source order = (Value.null, some E) := by
  have hlen : a.subAggregations.len > 0 := List.length_pos.mpr hne
  simp [FiltersAggregation.Source, filtersLoop_start, h, hlen, aggsLoop_eq, hagg]

theorem Source_of_all_ok {a : FiltersAggregation} {order : List (String × Aggregation)}
    (h : firstError (a.filters.map (fun f => f.Source)) = none)
    (hne : a.subAggregations ≠ [])
    (hagg : firstError (order.map (fun e => e.2.Source)) = none) :
    a.Source order =
      (Value.obj (a.addMeta (insertEntry "aggregations"
        (Value.obj (order.foldl (fun m e => insertEntry e.1 e.2.Source.1 m) []))
        (filtersDoc (serializedFilters a.filters)))), none) := by
  have hlen : a.subAggregations.len > 0 := List.length_pos.mpr hne
  simp [FiltersAggregation.Source, filtersLoop_start, h, hlen, aggsLoop_eq, hagg, filtersDoc,
    insertEntry]

theorem firstError_filters_none {fs : List Query} (h : ∀ f ∈ fs, f.Source.2 = none) :
    firstError (fs.map (fun f => f.Source)) = none := by
  rw [firstError_eq_none_iff]
  intro r hr
  obtain ⟨f, hf, rfl⟩ := List.mem_map.mp hr
  exact h f hf

theorem firstError_aggs_none {es : List (String × Aggregation)}
    (h : ∀ e ∈ es, e.2.Source.2 = none) :
    firstError (es.map (fun e => e.2.Source)) = none := by
  rw [firstError_eq_none_iff]
  intro r hr
  obtain ⟨e, he, rfl⟩ := List.mem_map.mp hr
  exact h e he

theorem populate_filters (calls : List AddCall) (a : FiltersAggregation) :
    calls.foldl AddCall.apply a =
      { a with filters := a.filters ++ addedFilters calls } := by
  induction calls generalizing a with
  | nil => simp [addedFilters]
  | cons c cs ih =>
    rw [List.foldl_cons, ih]
    cases c with
    | one f => simp [AddCall.apply, FiltersAggregation.Filter, addedFilters, AddCall.added]
    | many fs =>
      cases fs with
      | nil => simp [AddCall.apply, FiltersAggregation.Filters, addedFilters, AddCall.added]
      | cons f fs =>
        simp [AddCall.apply, FiltersAggregation.Filters, addedFilters, AddCall.added]

theorem exists_split_of_getElem? {α : Type} (l : List α) (i : Nat) (x : α)
    (h : l[i]? = some x) :
    ∃ pre post, l = pre ++ x :: post ∧ ∀ g ∈ pre, ∃ j, j < i ∧ l[j]? = some g := by
  induction l generalizing i with
  | nil => simp at h
  | cons y ys ih =>
    cases i with
    | zero =>
      simp only [List.getElem?_cons_zero, Option.some.injEq] at h
      subst h
      exact ⟨[], ys, rfl, by simp⟩
    | succ n =>
      rw [List.getElem?_cons_succ] at h
      obtain ⟨pre, post, hsplit, hpre⟩ := ih n h
      refine ⟨y :: pre, post, by rw [hsplit]; rfl, ?_⟩
      intro g hg
      rcases List.mem_cons.mp hg with rfl | hg'
      · exact ⟨0, Nat.succ_pos n, by simp⟩
      · obtain ⟨j, hj, hjg⟩ := hpre g hg'
        exact ⟨j + 1, Nat.succ_lt_succ hj, by rw [List.getElem?_cons_succ]; exact hjg⟩

/-! ## Reading the output mapping -/

theorem lookupEntry_eq_none_iff {V : Type} (k : String) (l : List (String × V)) :
    lookupEntry k l = none ↔ k ∉ l.map Prod.fst := by
  induction l with
  | nil => simp [lookupEntry]
  | cons e rest ih =>
    obtain ⟨k0, v0⟩ := e
    by_cases hk : k = k0
    · simp [lookupEntry, hk]
    · simp [lookupEntry, hk, ih]

theorem lookupEntry_serializedAggs (name : String) (m : GoMap Aggregation) :
    lookupEntry name (serializedAggs m) =
      (lookupEntry name m).map (fun agg => agg.Source.1) := by
  induction m with
  | nil => rfl
  | cons e rest ih =>
    obtain ⟨k0, v0⟩ := e
    by_cases hk : name = k0
    · simp [serializedAggs, lookupEntry, hk]
    · simpa [serializedAggs, lookupEntry, hk] using ih

theorem lookupEntry_addMeta_of_ne (a : FiltersAggregation) {k : String} (hk : k ≠ "meta")
    (source : GoMap Value) :
    lookupEntry k (a.addMeta source) = lookupEntry k source := by
  unfold FiltersAggregation.addMeta
  split_ifs
  · exact lookupEntry_insertEntry_of_ne hk _ _
  · rfl

theorem lookupEntry_addMeta_meta (a : FiltersAggregation) (source : GoMap Value) :
    lookupEntry "meta" (a.addMeta source) =
      if nilableLen a.meta > 0 then some (mapValue a.meta) else lookupEntry "meta" source := by
  unfold FiltersAggregation.addMeta
  split_ifs
  · exact lookupEntry_insertEntry_self _ _ _
  · rfl

theorem insertEntry_ne_nil {V : Type} (k : String) (v : V) (l : List (String × V)) :
    insertEntry k v l ≠ [] := by
  cases l with
  | nil => simp [insertEntry]
  | cons e rest =>
    obtain ⟨k0, v0⟩ := e
    unfold insertEntry
    split_ifs <;> simp

theorem foldl_insertEntry_ne_nil (order : List (String × Aggregation)) (acc : GoMap Value)
    (h : acc ≠ [] ∨ order ≠ []) :
    order.foldl (fun m e => insertEntry e.1 e.2.Source.1 m) acc ≠ [] := by
  induction order generalizing acc with
  | nil => simpa using h
  | cons e rest ih => exact ih _ (Or.inl (insertEntry_ne_nil _ _ _))

theorem Source_ok_cases {a : FiltersAggregation} {order : List (String × Aggregation)}
    (hok : (a.Source order).2 = none) :
    firstError (a.filters.map (fun f => f.Source)) = none ∧
      (a.subAggregations = [] ∨
        (a.subAggregations ≠ [] ∧ firstError (order.map (fun e => e.2.Source)) = none)) := by
  cases hF : firstError (a.filters.map (fun f => f.Source)) with
  | some E => rw [Source_of_filter_error hF] at hok; cases hok
  | none =>
    refine ⟨rfl, ?_⟩
    by_cases hempty : a.subAggregations = []
    · exact Or.inl hempty
    · cases hA : firstError (order.map (fun e => e.2.Source)) with
      | some E => rw [Source_of_agg_error hF hempty hA] at hok; cases hok
      | none => exact Or.inr ⟨hempty, rfl⟩

theorem lookupEntry_meta_base (a : FiltersAggregation) (order : List (String × Aggregation))
    (hok : (a.Source order).2 = none) :
    ∃ source : GoMap Value, a.Source order = (Value.obj (a.addMeta source), none) ∧
      lookupEntry "meta" source = none := by
  obtain ⟨hF, hempty | ⟨hne, hA⟩⟩ := Source_ok_cases hok
  · exact ⟨_, Source_of_no_aggs hF hempty order, rfl⟩
  · refine ⟨_, Source_of_all_ok hF hne hA, ?_⟩
    rw [lookupEntry_insertEntry_of_ne (by decide)]
    rfl

theorem Source_get_meta (a : FiltersAggregation) (order : List (String × Aggregation))
    (hok : (a.Source order).2 = none) :
    (a.Source order).1.get? "meta" =
      if nilableLen a.meta > 0 then some (mapValue a.meta) else none := by
  obtain ⟨source, hsrc, hbase⟩ := lookupEntry_meta_base a order hok
  rw [hsrc]
  simp only [Value.get?]
  rw [lookupEntry_addMeta_meta, hbase]

theorem Source_Meta_err (a : FiltersAggregation) (m : Option (GoMap Value))
    (order : List (String × Aggregation)) :
    ((a.Meta m).Source order).2 = (a.Source order).2 := by
  cases hF : firstError (a.filters.map (fun f => f.Source)) with
  | some E =>
    have hF' : firstError ((a.Meta m).filters.map (fun f => f.Source)) = some E := hF
    rw [Source_of_filter_error hF, Source_of_filter_error hF']
  | none =>
    have hF' : firstError ((a.Meta m).filters.map (fun f => f.Source)) = none := hF
    by_cases hempty : a.subAggregations = []
    · have hempty' : (a.Meta m).subAggregations = [] := hempty
      rw [Source_of_no_aggs hF hempty, Source_of_no_aggs hF' hempty']
    · have hempty' : (a.Meta m).subAggregations ≠ [] := hempty
      cases hA : firstError (order.map (fun e => e.2.Source)) with
      | some E => rw [Source_of_agg_error hF hempty hA, Source_of_agg_error hF' hempty' hA]
      | none => rw [Source_of_all_ok hF hempty hA, Source_of_all_ok hF' hempty' hA]

/-! ## Assignment keeps a map a map -/

theorem insertEntry_idem {V : Type} (k : String) (v₁ v₂ : V) (l : List (String × V)) :
    insertEntry k v₂ (insertEntry k v₁ l) = insertEntry k v₂ l := by
  induction l with
  | nil => simp [insertEntry, keyLt_irrefl]
  | cons e rest ih =>
    obtain ⟨k0, v0⟩ := e
    rcases keyLt_trichotomy k k0 with h | h | h
    · simp only [insertEntry_cons_lt h, insertEntry_cons_eq]
    · subst h
      simp only [insertEntry_cons_eq]
    · simp only [insertEntry_cons_gt h, ih]

theorem mem_insertEntry {V : Type} {k : String} {v : V} {l : List (String × V)}
    {y : String × V} (hy : y ∈ insertEntry k v l) : y = (k, v) ∨ y ∈ l := by
  induction l with
  | nil => simpa [insertEntry] using hy
  | cons e rest ih =>
    obtain ⟨k0, v0⟩ := e
    rcases keyLt_trichotomy k k0 with h | h | h
    · rw [insertEntry_cons_lt h] at hy
      simpa using hy
    · subst h
      rw [insertEntry_cons_eq] at hy
      rcases List.mem_cons.mp hy with h1 | h1
      · exact Or.inl h1
      · exact Or.inr (List.mem_cons_of_mem _ h1)
    · rw [insertEntry_cons_gt h] at hy
      rcases List.mem_cons.mp hy with h1 | h1
      · exact Or.inr (h1 ▸ List.mem_cons_self _ _)
      · rcases ih h1 with h2 | h2
        · exact Or.inl h2
        · exact Or.inr (List.mem_cons_of_mem _ h2)

theorem mem_insertEntry_self {V : Type} (k : String) (v : V) (l : List (String × V)) :
    (k, v) ∈ insertEntry k v l := by
  induction l with
  | nil => simp [insertEntry]
  | cons e rest ih =>
    obtain ⟨k0, v0⟩ := e
    rcases keyLt_trichotomy k k0 with h | h | h
    · rw [insertEntry_cons_lt h]
      exact List.mem_cons_self _ _
    · subst h
      rw [insertEntry_cons_eq]
      exact List.mem_cons_self _ _
    · rw [insertEntry_cons_gt h]
      exact List.mem_cons_of_mem _ ih

theorem insertEntry_keysSorted {V : Type} (k : String) (v : V) {l : List (String × V)}
    (hs : KeysSorted l) : KeysSorted (insertEntry k v l) := by
  induction l with
  | nil => simp [insertEntry, KeysSorted]
  | cons e rest ih =>
    obtain ⟨k0, v0⟩ := e
    have hs' := List.pairwise_cons.mp hs
    rcases keyLt_trichotomy k k0 with h | h | h
    · rw [insertEntry_cons_lt h]
      refine List.pairwise_cons.mpr ⟨?_, hs⟩
      intro y hy
      rcases List.mem_cons.mp hy with rfl | hy'
      · exact h
      · exact keyLt_trans h (hs'.1 y hy')
    · subst h
      rw [insertEntry_cons_eq]
      exact List.pairwise_cons.mpr ⟨fun y hy => hs'.1 y hy, hs'.2⟩
    · rw [insertEntry_cons_gt h]
      refine List.pairwise_cons.mpr ⟨?_, ih hs'.2⟩
      intro y hy
      rcases mem_insertEntry hy with rfl | hy'
      · exact h
      · exact hs'.1 y hy'

theorem keysSorted_nodup_keys {V : Type} {l : List (String × V)} (hs : KeysSorted l) :
    (l.map Prod.fst).Nodup := by
  induction l with
  | nil => simp
  | cons e rest ih =>
    have hs' := List.pairwise_cons.mp hs
    rw [List.map_cons, List.nodup_cons]
    refine ⟨?_, ih hs'.2⟩
    intro hmem
    obtain ⟨y, hy, hye⟩ := List.mem_map.mp hmem
    exact keyLt_ne (hs'.1 y hy) hye.symm

theorem mem_keys_insertEntry {V : Type} (k k' : String) (v : V) (l : List (String × V)) :
    k' ∈ (insertEntry k v l).map Prod.fst ↔ k' = k ∨ k' ∈ l.map Prod.fst := by
  induction l with
  | nil => simp [insertEntry]
  | cons e rest ih =>
    obtain ⟨k0, v0⟩ := e
    rcases keyLt_trichotomy k k0 with h | h | h
    · rw [insertEntry_cons_lt h]
      simp
    · subst h
      rw [insertEntry_cons_eq]
      simp
    · rw [insertEntry_cons_gt h, List.map_cons, List.mem_cons, ih]
      simp only [List.map_cons, List.mem_cons]
      tauto

theorem firstError_of_all_same {l : List GoResult} {E : GoError}
    (hex : ∃ r ∈ l, r.2 = some E) (hall : ∀ r ∈ l, r.2 = none ∨ r.2 = some E) :
    firstError l = some E := by
  cases h : firstError l with
  | none =>
    obtain ⟨r, hr, hE⟩ := hex
    rw [(firstError_eq_none_iff l).mp h r hr] at hE
    cases hE
  | some E' =>
    obtain ⟨r, hr, hE'⟩ := firstError_mem h
    rcases hall r hr with h1 | h1
    · rw [h1] at hE'
      cases hE'
    · rw [h1] at hE'
      exact hE'.symm ▸ rfl

theorem mem_keys_addMeta (a : FiltersAggregation) (k : String) (source : GoMap Value) :
    k ∈ (a.addMeta source).map Prod.fst →
      k = "meta" ∨ k ∈ source.map Prod.fst := by
  unfold FiltersAggregation.addMeta
  split_ifs
  · exact (mem_keys_insertEntry "meta" k _ source).mp
  · exact Or.inr

theorem mem_keys_of_lookupEntry {V : Type} {k : String} {l : List (String × V)} {v : V}
    (h : lookupEntry k l = some v) : k ∈ l.map Prod.fst := by
  by_contra hk
  rw [(lookupEntry_eq_none_iff k l).mpr hk] at h
  cases h

theorem Source_ok_shape {a : FiltersAggregation} {order : List (String × Aggregation)}
    (hok : (a.Source order).2 = none) :
    ∃ source : GoMap Value, a.Source order = (Value.obj (a.addMeta source), none) ∧
      lookupEntry "filters" source =
        some (Value.obj [("filters", Value.arr (serializedFilters a.filters))]) ∧
      ∀ k ∈ source.map Prod.fst, k = "filters" ∨ k = "aggregations" := by
  obtain ⟨hF, hempty | ⟨hne, hA⟩⟩ := Source_ok_cases hok
  · refine ⟨_, Source_of_no_aggs hF hempty order, rfl, ?_⟩
    intro k hk
    simp only [filtersDoc, List.map_cons, List.map_nil, List.mem_singleton] at hk
    exact Or.inl hk
  · refine ⟨_, Source_of_all_ok hF hne hA, ?_, ?_⟩
    · rw [lookupEntry_insertEntry_of_ne (by decide)]
      rfl
    · intro k hk
      rcases (mem_keys_insertEntry _ _ _ _).mp hk with h | h
      · exact Or.inr h
      · simp only [filtersDoc, List.map_cons, List.map_nil, List.mem_singleton] at h
        exact Or.inl h

theorem mem_insertEntry_of_mem {V : Type} {k : String} {v : V} {l : List (String × V)}
    {y : String × V} (hk : y.1 ≠ k) (hy : y ∈ l) : y ∈ insertEntry k v l := by
  induction l with
  | nil => cases hy
  | cons e rest ih =>
    obtain ⟨k0, v0⟩ := e
    rcases keyLt_trichotomy k k0 with h | h | h
    · rw [insertEntry_cons_lt h]
      exact List.mem_cons_of_mem _ hy
    · subst h
      rw [insertEntry_cons_eq]
      rcases List.mem_cons.mp hy with h1 | h1
      · exact absurd (congrArg Prod.fst h1) hk
      · exact List.mem_cons_of_mem _ h1
    · rw [insertEntry_cons_gt h]
      rcases List.mem_cons.mp hy with h1 | h1
      · exact h1 ▸ List.mem_cons_self _ _
      · exact List.mem_cons_of_mem _ (ih h1)

/-! ## Two calls that see the same results -/

theorem Source_order_independent (a : FiltersAggregation)
    (o₁ o₂ : List (String × Aggregation)) (hwf : KeysSorted a.subAggregations)
    (h₁ : RangeOrder a o₁) (h₂' : RangeOrder a o₂) :
    ((a.Source o₁).2 = none ↔ (a.Source o₂).2 = none) ∧
      ((a.Source o₁).2 = none → a.Source o₂ = a.Source o₁) ∧
      ((a.Source o₁).2 ≠ none →
        (a.Source o₁).1 = Value.null ∧ (a.Source o₂).1 = Value.null) ∧
      ((∃ f ∈ a.filters, f.Source.2 ≠ none) → a.Source o₂ = a.Source o₁) ∧
      ((∀ e₁ ∈ a.subAggregations, ∀ e₂ ∈ a.subAggregations, ∀ E₁ E₂,
          e₁.2.Source.2 = some E₁ → e₂.2.Source.2 = some E₂ → E₁ = E₂) →
        a.Source o₂ = a.Source o₁) := by
  cases hF : firstError (a.filters.map (fun f => f.Source)) with
  | some E =>
    rw [Source_of_filter_error hF, Source_of_filter_error hF]
    simp
  | none =>
    have hFnone : ¬ ∃ f ∈ a.filters, f.Source.2 ≠ none := by
      rintro ⟨f, hf, hne⟩
      exact hne ((firstError_eq_none_iff _).mp hF _ (List.mem_map.mpr ⟨f, hf, rfl⟩))
    by_cases hempty : a.subAggregations = []
    · rw [Source_of_no_aggs hF hempty, Source_of_no_aggs hF hempty]
      simp
    · have hperm : (o₁.map (fun e => e.2.Source)).Perm (o₂.map (fun e => e.2.Source)) :=
        (h₁.trans h₂'.symm).map _
      cases hA₁ : firstError (o₁.map (fun e => e.2.Source)) with
      | none =>
        have hA₂ : firstError (o₂.map (fun e => e.2.Source)) = none :=
          (firstError_isSome_of_perm hperm).mp hA₁
        rw [Source_of_all_ok hF hempty hA₁, Source_of_all_ok hF hempty hA₂,
          foldl_insertEntry_perm hwf h₁, foldl_insertEntry_perm hwf h₂']
        simp
      | some E₁ =>
        cases hA₂ : firstError (o₂.map (fun e => e.2.Source)) with
        | none =>
          rw [(firstError_isSome_of_perm hperm).mpr hA₂] at hA₁
          cases hA₁
        | some E₂ =>
          rw [Source_of_agg_error hF hempty hA₁, Source_of_agg_error hF hempty hA₂]
          refine ⟨by simp, by simp, by simp, fun h => absurd h hFnone, ?_⟩
          intro hsame
          obtain ⟨r₁, hr₁, hE₁⟩ := firstError_mem hA₁
          obtain ⟨r₂, hr₂, hE₂⟩ := firstError_mem hA₂
          obtain ⟨e₁, he₁, rfl⟩ := List.mem_map.mp hr₁
          obtain ⟨e₂, he₂, rfl⟩ := List.mem_map.mp hr₂
          have := hsame e₁ (h₁.mem_iff.mp he₁) e₂ (h₂'.mem_iff.mp he₂) E₁ E₂ hE₁ hE₂
          rw [this]

theorem keysSorted_map_values {V W : Type} (g : V → W) (l : List (String × V)) :
    KeysSorted (l.map (fun e => (e.1, g e.2))) ↔ KeysSorted l := by
  simp [KeysSorted, List.pairwise_map]

theorem view_eq_of_same_results (b : HeldBuilder) (c₁ c₂ : Nat)
    (hq : ∀ q ∈ b.filters, q.Source c₂ = q.Source c₁)
    (ha : ∀ e ∈ b.subAggregations, e.2.Source c₂ = e.2.Source c₁) :
    b.view c₂ = b.view c₁ := by
  have hfs : b.filters.map (fun q => (⟨q.Source c₂⟩ : Query)) =
      b.filters.map (fun q => (⟨q.Source c₁⟩ : Query)) :=
    List.map_congr_left (fun q hmem => by rw [hq q hmem])
  have hes : b.subAggregations.map (fun e => (e.1, (⟨e.2.Source c₂⟩ : Aggregation))) =
      b.subAggregations.map (fun e => (e.1, (⟨e.2.Source c₁⟩ : Aggregation))) :=
    List.map_congr_left (fun e hmem => by rw [ha e hmem])
  simp only [HeldBuilder.view, hfs, hes]

theorem hold_same_results (a : FiltersAggregation) (c₁ c₂ : Nat) :
    (∀ q ∈ a.hold.filters, q.Source c₂ = q.Source c₁) ∧
      (∀ e ∈ a.hold.subAggregations, e.2.Source c₂ = e.2.Source c₁) := by
  constructor
  · intro q hmem
    obtain ⟨f, _, rfl⟩ := List.mem_map.mp hmem
    rfl
  · intro e hmem
    obtain ⟨x, _, rfl⟩ := List.mem_map.mp hmem
    rfl

/-! ## Claims -/

/-- C1. Build on a builder made by `NewFiltersAggregation` and given only
filters, by any sequence of `Filter` and `Filters` calls, all of which
serialize successfully (possibly none at all): `Source` returns no error and
exactly the mapping `{"filters": {"filters": A}}`, where `A` lists the
serialized filters in the order added; `A` has as many elements as filters
were added and its `i`-th element is the serialized form of the `i`-th filter. -/
theorem Source_filters_only (calls : List AddCall)
    (order : List (String × Aggregation))
    (hok : ∀ f ∈ addedFilters calls, f.Source.2 = none) :
    (populate calls).Source order =
        (Value.obj [("filters",
          Value.obj [("filters", Value.arr (serializedFilters (addedFilters calls)))])], none) ∧
      (serializedFilters (addedFilters calls)).length = (addedFilters calls).length ∧
      ∀ (i : Nat) (f : Query), (addedFilters calls)[i]? = some f →
        (serializedFilters (addedFilters calls))[i]? = some f.Source.1 := by
  have hpop : populate calls =
      { filters := addedFilters calls, subAggregations := [], meta := none } := by
    simp [populate, populate_filters, NewFiltersAggregation]
  refine ⟨?_, by simp [serializedFilters], ?_⟩
  · rw [hpop, Source_of_no_aggs (firstError_filters_none hok) rfl]
    simp [FiltersAggregation.addMeta, nilableLen, filtersDoc]
  · intro i f hi
    simp [serializedFilters, hi]

/-- C1, at the scenario of the specification: two term filters, one added by
`Filter` and one by `Filters`. -/
theorem Source_filters_only_witness :
    (∀ f ∈ addedFilters [AddCall.one (termQuery "error"), AddCall.many [termQuery "warning"]],
        f.Source.2 = none) ∧
      (populate [AddCall.one (termQuery "error"), AddCall.many [termQuery "warning"]]).Source [] =
        (Value.obj [("filters", Value.obj [("filters", Value.arr
          [Value.obj [("term", Value.obj [("body", Value.str "error")])],
           Value.obj [("term", Value.obj [("body", Value.str "warning")])]])])], none) :=
  ⟨by simp [addedFilters, AddCall.added, termQuery],
    (Source_filters_only [AddCall.one (termQuery "error"), AddCall.many [termQuery "warning"]] []
      (by simp [addedFilters, AddCall.added, termQuery])).1⟩

/-- C2, as stated, fails: with two failing filters `Source` returns the error of
the first one, so for the second filter, which fails with `E2`, the result is
not `(nil, E2)`. -/
theorem Source_failing_filter_counterexample :
    failingQuery "E2" ∈ twoFailingFilters.filters ∧
      (failingQuery "E2").Source.2 = some "E2" ∧
      twoFailingFilters.Source [] = (Value.null, some "E1") ∧
      twoFailingFilters.Source [] ≠ (Value.null, some "E2") := by
  refine ⟨by simp [twoFailingFilters, NewFiltersAggregation, FiltersAggregation.Filter],
    rfl, rfl, ?_⟩
  have h : twoFailingFilters.Source [] = (Value.null, some "E1") := rfl
  rw [h]
  intro hcontra
  have h2 := congrArg Prod.snd hcontra
  simp at h2

/-- C2, amended. If a held filter `f` fails with error `E` and no filter before
it in the sequence fails with another error, then `Source` returns nil and
exactly `E`, however many filters precede or follow `f`, whatever the
following ones return, and whatever sub-aggregations and metadata are held. -/
theorem Source_failing_filter (a : FiltersAggregation)
    (order : List (String × Aggregation)) (pre post : List Query) (f : Query) (E : GoError)
    (hsplit : a.filters = pre ++ f :: post) (hf : f.Source.2 = some E)
    (hpre : ∀ g ∈ pre, g.Source.2 = none ∨ g.Source.2 = some E) :
    a.Source order = (Value.null, some E) := by
  apply Source_of_filter_error
  rw [hsplit, List.map_append, List.map_cons]
  apply firstError_append_cons _ _ _ _ hf
  intro r hr
  obtain ⟨g, hg, rfl⟩ := List.mem_map.mp hr
  exact hpre g hg

/-- C2 amended, at a builder whose second of three filters fails. -/
theorem Source_failing_filter_witness :
    failingSecondFilter.filters =
        [termQuery "error"] ++ failingQuery "E1" :: [termQuery "warning"] ∧
      (failingQuery "E1").Source.2 = some "E1" ∧
      (∀ g ∈ [termQuery "error"], g.Source.2 = none ∨ g.Source.2 = some "E1") ∧
      failingSecondFilter.Source [("errors", failingAgg "E2")] = (Value.null, some "E1") :=
  ⟨rfl, rfl, by simp [termQuery],
    Source_failing_filter failingSecondFilter [("errors", failingAgg "E2")]
      [termQuery "error"] [termQuery "warning"] (failingQuery "E1") "E1" rfl rfl
      (by simp [termQuery])⟩

/-- C3. `Source` returns an error exactly when a held filter or a stored
sub-aggregation fails to serialize; the value returned with an error is nil
and the error is the one returned by one of the failing filters or
sub-aggregations; a builder whose filters and sub-aggregations all serialize
never fails, whatever its metadata. -/
theorem Source_error_iff (a : FiltersAggregation) (order : List (String × Aggregation))
    (horder : RangeOrder a order) :
    ((a.Source order).2 ≠ none ↔
        (∃ f ∈ a.filters, f.Source.2 ≠ none) ∨
          (∃ e ∈ a.subAggregations, e.2.Source.2 ≠ none)) ∧
      (∀ E, (a.Source order).2 = some E →
        (a.Source order).1 = Value.null ∧
          ((∃ f ∈ a.filters, f.Source.2 = some E) ∨
            (∃ e ∈ a.subAggregations, e.2.Source.2 = some E))) ∧
      ((∀ f ∈ a.filters, f.Source.2 = none) →
        (∀ e ∈ a.subAggregations, e.2.Source.2 = none) → (a.Source order).2 = none) := by
  have hfmem : ∀ E, firstError (a.filters.map (fun f => f.Source)) = some E →
      ∃ f ∈ a.filters, f.Source.2 = some E := by
    intro E h
    obtain ⟨r, hr, hE⟩ := firstError_mem h
    obtain ⟨f, hf, rfl⟩ := List.mem_map.mp hr
    exact ⟨f, hf, hE⟩
  have hamem : ∀ E, firstError (order.map (fun e => e.2.Source)) = some E →
      ∃ e ∈ a.subAggregations, e.2.Source.2 = some E := by
    intro E h
    obtain ⟨r, hr, hE⟩ := firstError_mem h
    obtain ⟨e, he, rfl⟩ := List.mem_map.mp hr
    exact ⟨e, horder.mem_iff.mp he, hE⟩
  have hfnone : firstError (a.filters.map (fun f => f.Source)) = none →
      ∀ f ∈ a.filters, f.Source.2 = none := by
    intro h f hf
    exact (firstError_eq_none_iff _).mp h _ (List.mem_map.mpr ⟨f, hf, rfl⟩)
  have hanone : firstError (order.map (fun e => e.2.Source)) = none →
      ∀ e ∈ a.subAggregations, e.2.Source.2 = none := by
    intro h e he
    exact (firstError_eq_none_iff _).mp h _
      (List.mem_map.mpr ⟨e, horder.mem_iff.mpr he, rfl⟩)
  cases hF : firstError (a.filters.map (fun f => f.Source)) with
  | some E =>
    obtain ⟨f, hf, hfE⟩ := hfmem E hF
    rw [Source_of_filter_error hF]
    refine ⟨⟨fun _ => Or.inl ⟨f, hf, by simp [hfE]⟩, fun _ => by simp⟩, ?_, ?_⟩
    · intro E' hE'
      simp only [Option.some.injEq] at hE'
      subst hE'
      exact ⟨rfl, Or.inl ⟨f, hf, hfE⟩⟩
    · intro hall
      rw [hall f hf] at hfE
      cases hfE
  | none =>
    by_cases hempty : a.subAggregations = []
    · rw [Source_of_no_aggs hF hempty]
      refine ⟨⟨fun h => absurd rfl h, ?_⟩, fun E h => by simp at h, fun _ _ => rfl⟩
      rintro (⟨f, hf, hne⟩ | ⟨e, he, _⟩)
      · exact absurd (hfnone hF f hf) hne
      · rw [hempty] at he
        cases he
    · cases hA : firstError (order.map (fun e => e.2.Source)) with
      | some E =>
        obtain ⟨e, he, heE⟩ := hamem E hA
        rw [Source_of_agg_error hF hempty hA]
        refine ⟨⟨fun _ => Or.inr ⟨e, he, by simp [heE]⟩, fun _ => by simp⟩, ?_, ?_⟩
        · intro E' hE'
          simp only [Option.some.injEq] at hE'
          subst hE'
          exact ⟨rfl, Or.inr ⟨e, he, heE⟩⟩
        · intro _ hall
          rw [hall e he] at heE
          cases heE
      | none =>
        rw [Source_of_all_ok hF hempty hA]
        refine ⟨⟨fun h => absurd rfl h, ?_⟩, fun E h => by simp at h, fun _ _ => rfl⟩
        rintro (⟨f, hf, hne⟩ | ⟨e, he, hne⟩)
        · exact absurd (hfnone hF f hf) hne
        · exact absurd (hanone hA e he) hne

/-- C3, at a builder with a failing filter and a failing sub-aggregation. -/
theorem Source_error_iff_witness :
    RangeOrder failingSecondFilter [("errors", failingAgg "E2")] ∧
      ((failingSecondFilter.Source [("errors", failingAgg "E2")]).2 ≠ none ↔
        (∃ f ∈ failingSecondFilter.filters, f.Source.2 ≠ none) ∨
          (∃ e ∈ failingSecondFilter.subAggregations, e.2.Source.2 ≠ none)) :=
  ⟨List.Perm.refl _,
    (Source_error_iff failingSecondFilter [("errors", failingAgg "E2")] (List.Perm.refl _)).1⟩

/-- C4. When at least one filter fails, `Source` returns nil and the error of
the failing filter of smallest index, whatever the later filters return,
whatever sub-aggregations (failing or not) and metadata are stored, and in
whatever order the sub-aggregations would be visited. -/
theorem Source_first_failing_filter (a : FiltersAggregation)
    (order : List (String × Aggregation)) (i : Nat) (f : Query) (E : GoError)
    (hi : a.filters[i]? = some f) (hf : f.Source.2 = some E)
    (hmin : ∀ (j : Nat) (g : Query), j < i → a.filters[j]? = some g → g.Source.2 = none) :
    a.Source order = (Value.null, some E) := by
  obtain ⟨pre, post, hsplit, hpre⟩ := exists_split_of_getElem? a.filters i f hi
  apply Source_of_filter_error
  rw [hsplit, List.map_append, List.map_cons]
  apply firstError_append_cons _ _ _ _ hf
  intro r hr
  obtain ⟨g, hg, rfl⟩ := List.mem_map.mp hr
  obtain ⟨j, hj, hjg⟩ := hpre g hg
  exact Or.inl (hmin j g hj hjg)

/-- C4, at a builder whose filter of index 1 is the first to fail, with a
failing sub-aggregation and metadata stored. -/
theorem Source_first_failing_filter_witness :
    failingSecondFilter.filters[1]? = some (failingQuery "E1") ∧
      (failingQuery "E1").Source.2 = some "E1" ∧
      (∀ (j : Nat) (g : Query), j < 1 → failingSecondFilter.filters[j]? = some g →
        g.Source.2 = none) ∧
      failingSecondFilter.Source [("errors", failingAgg "E2")] = (Value.null, some "E1") :=
  have hmin : ∀ (j : Nat) (g : Query), j < 1 → failingSecondFilter.filters[j]? = some g →
      g.Source.2 = none := by
    intro j g hj hg
    have hj0 : j = 0 := by omega
    subst hj0
    have h0 : failingSecondFilter.filters[0]? = some (termQuery "error") := rfl
    rw [h0] at hg
    cases hg
    rfl
  ⟨rfl, rfl, hmin,
    Source_first_failing_filter failingSecondFilter [("errors", failingAgg "E2")] 1
      (failingQuery "E1") "E1" rfl rfl hmin⟩

/-- C5. When all filters and all sub-aggregations serialize and at least one
sub-aggregation is stored, the value under the top-level key `"aggregations"`
is a mapping with exactly the stored names as keys, each name mapped to the
serialized form of the aggregation stored under it; this holds for every
order in which the map is ranged over. -/
theorem Source_aggregations (a : FiltersAggregation) (order : List (String × Aggregation))
    (hwf : KeysSorted a.subAggregations) (horder : RangeOrder a order)
    (hF : ∀ f ∈ a.filters, f.Source.2 = none)
    (hA : ∀ e ∈ a.subAggregations, e.2.Source.2 = none)
    (hne : a.subAggregations ≠ []) :
    (a.Source order).1.get? "aggregations" =
        some (Value.obj (serializedAggs a.subAggregations)) ∧
      (Value.obj (serializedAggs a.subAggregations)).keys = a.subAggregations.map Prod.fst ∧
      ∀ name, (Value.obj (serializedAggs a.subAggregations)).get? name =
        (lookupEntry name a.subAggregations).map (fun agg => agg.Source.1) := by
  have hA' : firstError (order.map (fun e => e.2.Source)) = none :=
    firstError_aggs_none (fun e he => hA e (horder.mem_iff.mp he))
  refine ⟨?_, by simp [Value.keys, serializedAggs], ?_⟩
  · rw [Source_of_all_ok (firstError_filters_none hF) hne hA',
      foldl_insertEntry_perm hwf horder]
    simp only [Value.get?]
    rw [lookupEntry_addMeta_of_ne a (by decide), lookupEntry_insertEntry_self]
  · intro name
    exact lookupEntry_serializedAggs name a.subAggregations

/-- C5, at a builder with sub-aggregations `"errors"` and `"count"`, ranged over
in the order `"errors"`, `"count"`: `output["aggregations"]["errors"]` is the
serialized form of the aggregation stored under `"errors"`. -/
theorem Source_aggregations_witness :
    KeysSorted fullBuilder.subAggregations ∧
      RangeOrder fullBuilder [("errors", maxAgg "level"), ("count", maxAgg "n")] ∧
      (∀ f ∈ fullBuilder.filters, f.Source.2 = none) ∧
      (∀ e ∈ fullBuilder.subAggregations, e.2.Source.2 = none) ∧
      fullBuilder.subAggregations ≠ [] ∧
      (fullBuilder.Source [("errors", maxAgg "level"), ("count", maxAgg "n")]).1.get?
          "aggregations" =
        some (Value.obj [("count", (maxAgg "n").Source.1),
          ("errors", (maxAgg "level").Source.1)]) :=
  have h1 : KeysSorted fullBuilder.subAggregations := by decide
  have h2 : RangeOrder fullBuilder [("errors", maxAgg "level"), ("count", maxAgg "n")] :=
    List.Perm.swap _ _ _
  have h3 : ∀ f ∈ fullBuilder.filters, f.Source.2 = none := by
    intro f hf
    have hfs : fullBuilder.filters = [termQuery "error", termQuery "warning"] := rfl
    rw [hfs] at hf
    simp only [List.mem_cons, List.mem_singleton, List.not_mem_nil, or_false] at hf
    rcases hf with rfl | rfl <;> rfl
  have h4 : ∀ e ∈ fullBuilder.subAggregations, e.2.Source.2 = none := by
    intro e he
    have hes : fullBuilder.subAggregations =
        [("count", maxAgg "n"), ("errors", maxAgg "level")] := rfl
    rw [hes] at he
    simp only [List.mem_cons, List.mem_singleton, List.not_mem_nil, or_false] at he
    rcases he with rfl | rfl <;> rfl
  have h5 : fullBuilder.subAggregations ≠ [] := by
    have hes : fullBuilder.subAggregations =
        [("count", maxAgg "n"), ("errors", maxAgg "level")] := rfl
    rw [hes]
    exact List.cons_ne_nil _ _
  ⟨h1, h2, h3, h4, h5, (Source_aggregations fullBuilder _ h1 h2 h3 h4 h5).1⟩

/-- C6. When `Source` succeeds, the output has the top-level key
`"aggregations"` exactly when at least one sub-aggregation is stored; with none
stored the key is not among the keys of the output, and the key is never
present with an empty mapping as its value. -/
theorem Source_aggregations_key_iff (a : FiltersAggregation)
    (order : List (String × Aggregation)) (horder : RangeOrder a order)
    (hok : (a.Source order).2 = none) :
    (((a.Source order).1.get? "aggregations").isSome ↔ a.subAggregations ≠ []) ∧
      (a.subAggregations = [] → "aggregations" ∉ (a.Source order).1.keys) ∧
      (a.Source order).1.get? "aggregations" ≠ some (Value.obj []) := by
  obtain ⟨hF, hempty | ⟨hne, hA⟩⟩ := Source_ok_cases hok
  · have hget : (a.Source order).1.get? "aggregations" = none := by
      rw [Source_of_no_aggs hF hempty]
      simp only [Value.get?]
      rw [lookupEntry_addMeta_of_ne a (by decide)]
      rfl
    refine ⟨by simp [hget, hempty], fun _ => ?_, by simp [hget]⟩
    rw [Source_of_no_aggs hF hempty] at hget ⊢
    exact (lookupEntry_eq_none_iff _ _).mp hget
  · have hget : (a.Source order).1.get? "aggregations" =
        some (Value.obj (order.foldl (fun m e => insertEntry e.1 e.2.Source.1 m) [])) := by
      rw [Source_of_all_ok hF hne hA]
      simp only [Value.get?]
      rw [lookupEntry_addMeta_of_ne a (by decide), lookupEntry_insertEntry_self]
    refine ⟨by simp [hget, hne], fun h => absurd h hne, ?_⟩
    rw [hget]
    intro hcontra
    simp only [Option.some.injEq, Value.obj.injEq] at hcontra
    have hord : order ≠ [] := by
      intro h
      rw [h] at horder
      exact hne (List.Perm.eq_nil (List.Perm.symm horder))
    exact foldl_insertEntry_ne_nil order [] (Or.inr hord) hcontra

/-- C6, at a builder holding two sub-aggregations: the key is present. -/
theorem Source_aggregations_key_iff_witness :
    RangeOrder fullBuilder [("errors", maxAgg "level"), ("count", maxAgg "n")] ∧
      (fullBuilder.Source [("errors", maxAgg "level"), ("count", maxAgg "n")]).2 = none ∧
      (((fullBuilder.Source [("errors", maxAgg "level"), ("count", maxAgg "n")]).1.get?
          "aggregations").isSome ↔ fullBuilder.subAggregations ≠ []) :=
  ⟨List.Perm.swap _ _ _, rfl,
    (Source_aggregations_key_iff fullBuilder _ (List.Perm.swap _ _ _) rfl).1⟩

/-- C7. `Meta` replaces the stored metadata: after `Meta(m1)` followed by
`Meta(m2)` with `m2` non-empty, the builder is the one that `Meta(m2)` alone
gives, and a successful `Source` has `output["meta"]` equal to `m2`, so that
every key under `output["meta"]` is a key of `m2` with the value `m2` gives it;
the same holds after a single `Meta(m2)`. -/
theorem Source_Meta_replaces (a : FiltersAggregation) (order : List (String × Aggregation))
    (m1 : Option (GoMap Value)) (m2 : GoMap Value) (hne : m2 ≠ [])
    (hok : (((a.Meta m1).Meta (some m2)).Source order).2 = none) :
    (((a.Meta m1).Meta (some m2)).Source order).1.get? "meta" = some (Value.obj m2) ∧
      (∀ k, ((((a.Meta m1).Meta (some m2)).Source order).1.get? "meta").bind (Value.get? k) =
        lookupEntry k m2) ∧
      (a.Meta m1).Meta (some m2) = a.Meta (some m2) ∧
      ((a.Meta (some m2)).Source order).1.get? "meta" = some (Value.obj m2) := by
  have hlen : nilableLen ((a.Meta m1).Meta (some m2)).meta > 0 := List.length_pos.mpr hne
  have hget : (((a.Meta m1).Meta (some m2)).Source order).1.get? "meta" =
      some (Value.obj m2) := by
    rw [Source_get_meta _ order hok, if_pos hlen]
    rfl
  refine ⟨hget, ?_, rfl, hget⟩
  intro k
  rw [hget]
  rfl

/-- C7, at `Meta({"shape":"round"})` followed by `Meta({"color":"blue"})` on a
new builder: `output["meta"]` is `{"color":"blue"}`. -/
theorem Source_Meta_replaces_witness :
    ([("color", Value.str "blue")] : GoMap Value) ≠ [] ∧
      (((NewFiltersAggregation.Meta (some [("shape", Value.str "round")])).Meta
        (some [("color", Value.str "blue")])).Source []).2 = none ∧
      (((NewFiltersAggregation.Meta (some [("shape", Value.str "round")])).Meta
        (some [("color", Value.str "blue")])).Source []).1.get? "meta" =
          some (Value.obj [("color", Value.str "blue")]) :=
  ⟨List.cons_ne_nil _ _, rfl,
    (Source_Meta_replaces NewFiltersAggregation [] (some [("shape", Value.str "round")])
      [("color", Value.str "blue")] (List.cons_ne_nil _ _) rfl).1⟩

/-- C8. When `Source` succeeds, the output has the top-level key `"meta"`
exactly when the stored metadata has at least one entry. With metadata nil
(never set, or set to nil) or empty the key is absent, also right after
`Meta(nil)` or `Meta` of an empty mapping on a builder that held metadata;
when present the value is the stored mapping, unchanged. The stored
mapping is the one most recently passed to `Meta`. -/
theorem Source_meta_key_iff (a : FiltersAggregation) (order : List (String × Aggregation))
    (hok : (a.Source order).2 = none) :
    (((a.Source order).1.get? "meta").isSome ↔ 0 < nilableLen a.meta) ∧
      (a.meta = none ∨ a.meta = some [] →
        (a.Source order).1.get? "meta" = none ∧ "meta" ∉ (a.Source order).1.keys) ∧
      (∀ m, a.meta = some m → m ≠ [] →
        (a.Source order).1.get? "meta" = some (Value.obj m)) ∧
      ((a.Meta none).Source order).1.get? "meta" = none ∧
      ((a.Meta (some [])).Source order).1.get? "meta" = none ∧
      (∀ m, (a.Meta m).meta = m) ∧ NewFiltersAggregation.meta = none := by
  have hget := Source_get_meta a order hok
  have hnil : ((a.Meta none).Source order).1.get? "meta" = none := by
    rw [Source_get_meta _ order (by rw [Source_Meta_err]; exact hok)]
    rfl
  have hemp : ((a.Meta (some [])).Source order).1.get? "meta" = none := by
    rw [Source_get_meta _ order (by rw [Source_Meta_err]; exact hok)]
    rfl
  refine ⟨?_, ?_, ?_, hnil, hemp, fun _ => rfl, rfl⟩
  · rw [hget]
    split_ifs with h
    · simp [h]
    · simp [h]
  · intro hm
    have hlen : ¬ nilableLen a.meta > 0 := by
      rcases hm with h | h <;> simp [h, nilableLen, GoMap.len]
    have hnone : (a.Source order).1.get? "meta" = none := by rw [hget, if_neg hlen]
    refine ⟨hnone, ?_⟩
    obtain ⟨source, hsrc, _⟩ := lookupEntry_meta_base a order hok
    rw [hsrc] at hnone ⊢
    exact (lookupEntry_eq_none_iff _ _).mp hnone
  · intro m hm hne
    have hlen : nilableLen a.meta > 0 := by
      rw [hm]
      exact List.length_pos.mpr hne
    rw [hget, if_pos hlen, hm]
    rfl

/-- C8, at a builder with metadata `{"color":"blue"}`, and after `Meta` of an
empty mapping on it. -/
theorem Source_meta_key_iff_witness :
    (fullBuilder.Source [("errors", maxAgg "level"), ("count", maxAgg "n")]).2 = none ∧
      (((fullBuilder.Source [("errors", maxAgg "level"), ("count", maxAgg "n")]).1.get?
          "meta").isSome ↔ 0 < nilableLen fullBuilder.meta) ∧
      ((fullBuilder.Meta (some [])).Source
        [("errors", maxAgg "level"), ("count", maxAgg "n")]).1.get? "meta" = none :=
  ⟨rfl,
    (Source_meta_key_iff fullBuilder [("errors", maxAgg "level"), ("count", maxAgg "n")] rfl).1,
    (Source_meta_key_iff fullBuilder [("errors", maxAgg "level"), ("count", maxAgg "n")]
      rfl).2.2.2.2.1⟩

/-- C9. Adding filters one at a time with `Filter`, in order, gives the same
builder as one variadic `Filters` call with the same filters: the same filter
sequence (the old one followed by the new filters in order), the same
sub-aggregations and the same metadata, hence the same result of `Source`. -/
theorem Filter_fold_eq_Filters (b : FiltersAggregation) (fs : List Query) :
    fs.foldl FiltersAggregation.Filter b = b.Filters fs ∧
      (b.Filters fs).filters = b.filters ++ fs ∧
      (b.Filters fs).subAggregations = b.subAggregations ∧
      (b.Filters fs).meta = b.meta ∧
      ∀ order, (fs.foldl FiltersAggregation.Filter b).Source order =
        (b.Filters fs).Source order := by
  have hfold : ∀ (fs : List Query) (b : FiltersAggregation),
      fs.foldl FiltersAggregation.Filter b = { b with filters := b.filters ++ fs } := by
    intro fs
    induction fs with
    | nil => intro b; simp
    | cons f rest ih => intro b; rw [List.foldl_cons, ih]; simp [FiltersAggregation.Filter]
  have hFilters : b.Filters fs = { b with filters := b.filters ++ fs } := by
    cases fs with
    | nil => simp [FiltersAggregation.Filters]
    | cons f rest => simp [FiltersAggregation.Filters]
  have heq : fs.foldl FiltersAggregation.Filter b = b.Filters fs := by
    rw [hfold, hFilters]
  refine ⟨heq, by rw [hFilters], by rw [hFilters], by rw [hFilters], ?_⟩
  intro order
  rw [heq]

/-- C10, as stated, fails, in two ways. On a builder whose two
sub-aggregations fail with different errors, each returning the same result in
every call, a call that ranges over `"errors"` first returns `E1` and the next
call, on the unchanged builder, that ranges over `"count"` first returns `E2`.
On a builder whose only sub-aggregation is such a builder, a call in which the
inner range takes `"errors"` first returns `E1` and the next call, in which it
takes `"count"` first, returns `E2`. -/
theorem callSource_twice_counterexample :
    (KeysSorted twoFailingAggs.hold.subAggregations ∧
      RangeOrder (twoFailingAggs.hold.view 0) errorsFirst ∧
      RangeOrder ((twoFailingAggs.hold.callSource 0 errorsFirst).2.view 1) countFirst ∧
      (twoFailingAggs.hold.callSource 0 errorsFirst).1 = (Value.null, some "E1") ∧
      ((twoFailingAggs.hold.callSource 0 errorsFirst).2.callSource 1 countFirst).1 =
        (Value.null, some "E2") ∧
      (twoFailingAggs.hold.callSource 0 errorsFirst).1.2 ≠
        ((twoFailingAggs.hold.callSource 0 errorsFirst).2.callSource 1 countFirst).1.2) ∧
    (RangeOrder twoFailingAggs (alternatingOrders 0) ∧
      RangeOrder twoFailingAggs (alternatingOrders 1) ∧
      nestedBuilder.subAggregations.length = 1 ∧
      RangeOrder (nestedBuilder.view 0) (nestedBuilder.view 0).subAggregations ∧
      RangeOrder
        ((nestedBuilder.callSource 0 (nestedBuilder.view 0).subAggregations).2.view 1)
        (nestedBuilder.view 1).subAggregations ∧
      (nestedBuilder.callSource 0 (nestedBuilder.view 0).subAggregations).1 =
        (Value.null, some "E1") ∧
      ((nestedBuilder.callSource 0 (nestedBuilder.view 0).subAggregations).2.callSource 1
        (nestedBuilder.view 1).subAggregations).1 = (Value.null, some "E2") ∧
      (nestedBuilder.callSource 0 (nestedBuilder.view 0).subAggregations).1.2 ≠
        ((nestedBuilder.callSource 0 (nestedBuilder.view 0).subAggregations).2.callSource 1
          (nestedBuilder.view 1).subAggregations).1.2) := by
  refine ⟨⟨by decide, List.Perm.swap _ _ _, List.Perm.refl _, rfl, rfl, by decide⟩,
    ⟨List.Perm.swap _ _ _, List.Perm.refl _, rfl, List.Perm.refl _, List.Perm.refl _, rfl, rfl,
      by decide⟩⟩

/-- C10, amended. `Source` leaves the builder as it was: filter sequence,
sub-aggregation mapping and metadata are the same after a call as before. For
two consecutive calls with no mutation in between, in which every held filter
and every stored sub-aggregation returns from its own `Source()` the same
result in the second call as in the first: both calls succeed or both fail;
when they succeed they return equal mappings; when they fail both return nil
with an error, and the two errors are the same whenever a filter fails or all
failing sub-aggregations fail with the same error. -/
theorem callSource_repeatable (b : HeldBuilder) (c₁ c₂ : Nat)
    (o₁ o₂ : List (String × Aggregation)) :
    (b.callSource c₁ o₁).2 = b ∧
      ((b.callSource c₁ o₁).2.callSource c₂ o₂).2 = b ∧
      (KeysSorted b.subAggregations →
        RangeOrder (b.view c₁) o₁ →
        RangeOrder ((b.callSource c₁ o₁).2.view c₂) o₂ →
        (∀ q ∈ b.filters, q.Source c₂ = q.Source c₁) →
        (∀ e ∈ b.subAggregations, e.2.Source c₂ = e.2.Source c₁) →
          ((b.callSource c₁ o₁).1.2 = none ↔
            ((b.callSource c₁ o₁).2.callSource c₂ o₂).1.2 = none) ∧
          ((b.callSource c₁ o₁).1.2 = none →
            ((b.callSource c₁ o₁).2.callSource c₂ o₂).1 = (b.callSource c₁ o₁).1) ∧
          ((b.callSource c₁ o₁).1.2 ≠ none →
            (b.callSource c₁ o₁).1.1 = Value.null ∧
              ((b.callSource c₁ o₁).2.callSource c₂ o₂).1.1 = Value.null) ∧
          ((∃ q ∈ b.filters, (q.Source c₁).2 ≠ none) →
            ((b.callSource c₁ o₁).2.callSource c₂ o₂).1 = (b.callSource c₁ o₁).1) ∧
          ((∀ e₁ ∈ b.subAggregations, ∀ e₂ ∈ b.subAggregations, ∀ E₁ E₂,
              (e₁.2.Source c₁).2 = some E₁ → (e₂.2.Source c₁).2 = some E₂ → E₁ = E₂) →
            ((b.callSource c₁ o₁).2.callSource c₂ o₂).1 = (b.callSource c₁ o₁).1)) := by
  refine ⟨rfl, rfl, ?_⟩
  intro hwf h₁ h₂ hq ha
  simp only [HeldBuilder.callSource] at h₂ ⊢
  rw [view_eq_of_same_results b c₁ c₂ hq ha] at h₂ ⊢
  have hwf' : KeysSorted (b.view c₁).subAggregations :=
    (keysSorted_map_values (fun x : HeldAggregation => (⟨x.Source c₁⟩ : Aggregation))
      b.subAggregations).mpr hwf
  obtain ⟨hiff, hok, hnull, hfil, hsame⟩ :=
    Source_order_independent (b.view c₁) o₁ o₂ hwf' h₁ h₂
  refine ⟨hiff, hok, hnull, ?_, ?_⟩
  · rintro ⟨q, hmem, hne⟩
    exact hfil ⟨⟨q.Source c₁⟩, List.mem_map.mpr ⟨q, hmem, rfl⟩, hne⟩
  · intro hall
    apply hsame
    intro e₁ he₁ e₂ he₂ E₁ E₂ hE₁ hE₂
    obtain ⟨x₁, hx₁, rfl⟩ := List.mem_map.mp he₁
    obtain ⟨x₂, hx₂, rfl⟩ := List.mem_map.mp he₂
    exact hall x₁ hx₁ x₂ hx₂ E₁ E₂ hE₁ hE₂

/-- C10 amended, at a builder with one failing and one succeeding
sub-aggregation, each returning the same result in every call, ranged over in
two different orders: both calls return nil and the error `E1`. -/
theorem callSource_repeatable_witness :
    KeysSorted oneFailingAgg.hold.subAggregations ∧
      RangeOrder (oneFailingAgg.hold.view 0)
        [("errors", failingAgg "E1"), ("count", maxAgg "n")] ∧
      RangeOrder
        ((oneFailingAgg.hold.callSource 0
          [("errors", failingAgg "E1"), ("count", maxAgg "n")]).2.view 1)
        [("count", maxAgg "n"), ("errors", failingAgg "E1")] ∧
      (∀ q ∈ oneFailingAgg.hold.filters, q.Source 1 = q.Source 0) ∧
      (∀ e ∈ oneFailingAgg.hold.subAggregations, e.2.Source 1 = e.2.Source 0) ∧
      (oneFailingAgg.hold.callSource 0
        [("errors", failingAgg "E1"), ("count", maxAgg "n")]).1 = (Value.null, some "E1") ∧
      ((oneFailingAgg.hold.callSource 0
        [("errors", failingAgg "E1"), ("count", maxAgg "n")]).2.callSource 1
          [("count", maxAgg "n"), ("errors", failingAgg "E1")]).1 =
        (oneFailingAgg.hold.callSource 0
          [("errors", failingAgg "E1"), ("count", maxAgg "n")]).1 :=
  have hsorted : KeysSorted oneFailingAgg.hold.subAggregations := by decide
  have hsame : ∀ (e₁ : String × HeldAggregation), e₁ ∈ oneFailingAgg.hold.subAggregations →
      ∀ (e₂ : String × HeldAggregation), e₂ ∈ oneFailingAgg.hold.subAggregations →
      ∀ (E₁ E₂ : GoError), (e₁.2.Source 0).2 = some E₁ → (e₂.2.Source 0).2 = some E₂ →
        E₁ = E₂ := by
    have hes : oneFailingAgg.hold.subAggregations =
        [("count", ⟨fun _ => (maxAgg "n").Source⟩),
          ("errors", ⟨fun _ => (failingAgg "E1").Source⟩)] := rfl
    intro e₁ he₁ e₂ he₂ E₁ E₂ hE₁ hE₂
    rw [hes] at he₁ he₂
    simp only [List.mem_cons, List.mem_singleton, List.not_mem_nil, or_false] at he₁ he₂
    rcases he₁ with rfl | rfl
    · cases hE₁
    · rcases he₂ with rfl | rfl
      · cases hE₂
      · cases hE₁
        cases hE₂
        rfl
  ⟨hsorted, List.Perm.swap _ _ _, List.Perm.refl _,
    (hold_same_results oneFailingAgg 0 1).1, (hold_same_results oneFailingAgg 0 1).2, rfl,
    ((callSource_repeatable oneFailingAgg.hold 0 1
      [("errors", failingAgg "E1"), ("count", maxAgg "n")]
      [("count", maxAgg "n"), ("errors", failingAgg "E1")]).2.2
        hsorted (List.Perm.swap _ _ _) (List.Perm.refl _)
        (hold_same_results oneFailingAgg 0 1).1
        (hold_same_results oneFailingAgg 0 1).2).2.2.2.2 hsame⟩

/-- C11. `SubAggregation` keeps the last write for a name. After
`SubAggregation(n, a1)` followed by `SubAggregation(n, a2)` the builder is the
one that `SubAggregation(n, a2)` alone gives: it stores `a2` under `n`, exactly
one entry has the name `n`, and every entry under another name is as before.
A successful `Source` has `output["aggregations"][n]` equal to the serialized
form of `a2`; the result of `Source` is the same whatever `a1` was, and
`Source` succeeds when the filters, `a2` and the entries under other names
serialize, even if `a1` does not. -/
theorem SubAggregation_last_write_wins (a : FiltersAggregation) (n : String)
    (a1 a2 : Aggregation) (order : List (String × Aggregation))
    (hwf : KeysSorted a.subAggregations)
    (horder : RangeOrder ((a.SubAggregation n a1).SubAggregation n a2) order) :
    (a.SubAggregation n a1).SubAggregation n a2 = a.SubAggregation n a2 ∧
      lookupEntry n ((a.SubAggregation n a1).SubAggregation n a2).subAggregations =
        some a2 ∧
      (((a.SubAggregation n a1).SubAggregation n a2).subAggregations.map Prod.fst).count n
        = 1 ∧
      (∀ n', n' ≠ n →
        lookupEntry n' ((a.SubAggregation n a1).SubAggregation n a2).subAggregations =
          lookupEntry n' a.subAggregations) ∧
      ((((a.SubAggregation n a1).SubAggregation n a2).Source order).2 = none →
        ((((a.SubAggregation n a1).SubAggregation n a2).Source order).1.get?
          "aggregations").bind (Value.get? n) = some a2.Source.1) ∧
      (∀ a1' : Aggregation,
        ((a.SubAggregation n a1').SubAggregation n a2).Source order =
          ((a.SubAggregation n a1).SubAggregation n a2).Source order) ∧
      ((∀ f ∈ a.filters, f.Source.2 = none) → a2.Source.2 = none →
        (∀ e ∈ a.subAggregations, e.1 ≠ n → e.2.Source.2 = none) →
        (((a.SubAggregation n a1).SubAggregation n a2).Source order).2 = none) := by
  have hstate : ∀ a1' : Aggregation,
      (a.SubAggregation n a1').SubAggregation n a2 = a.SubAggregation n a2 := by
    intro a1'
    simp [FiltersAggregation.SubAggregation, insertEntry_idem]
  have hsubs : (a.SubAggregation n a2).subAggregations =
      insertEntry n a2 a.subAggregations := rfl
  have hfil : (a.SubAggregation n a2).filters = a.filters := rfl
  have hsorted : KeysSorted (a.SubAggregation n a2).subAggregations :=
    insertEntry_keysSorted n a2 hwf
  have hne : (a.SubAggregation n a2).subAggregations ≠ [] := insertEntry_ne_nil _ _ _
  rw [hstate a1] at horder ⊢
  refine ⟨rfl, ?_, ?_, ?_, ?_, ?_, ?_⟩
  · rw [hsubs]
    exact lookupEntry_insertEntry_self _ _ _
  · apply List.count_eq_one_of_mem (keysSorted_nodup_keys hsorted)
    rw [hsubs]
    exact (mem_keys_insertEntry n n a2 _).mpr (Or.inl rfl)
  · intro n' hn'
    rw [hsubs]
    exact lookupEntry_insertEntry_of_ne hn' _ _
  · intro hok
    obtain ⟨hF, hempty | ⟨_, hA⟩⟩ := Source_ok_cases hok
    · exact absurd hempty hne
    · rw [Source_of_all_ok hF hne hA, foldl_insertEntry_perm hsorted horder]
      simp only [Value.get?]
      rw [lookupEntry_addMeta_of_ne _ (by decide), lookupEntry_insertEntry_self]
      show lookupEntry n (serializedAggs (a.SubAggregation n a2).subAggregations) = _
      rw [lookupEntry_serializedAggs, hsubs, lookupEntry_insertEntry_self]
      rfl
  · intro a1'
    rw [hstate a1']
  · intro hF ha2 hothers
    have hA : firstError (order.map (fun e => e.2.Source)) = none := by
      apply firstError_aggs_none
      intro e he
      have hmem : e ∈ insertEntry n a2 a.subAggregations := horder.mem_iff.mp he
      rcases mem_insertEntry hmem with rfl | hold
      · exact ha2
      · by_cases hen : e.1 = n
        · have := keysSorted_ne hsorted hmem (mem_insertEntry_self n a2 _) hen
          rw [this]
          exact ha2
        · exact hothers e hold hen
    rw [Source_of_all_ok (firstError_filters_none (hfil ▸ hF)) hne hA]

/-- C11, at a builder that holds `"errors"` and `"count"`: a failing
aggregation is stored under `"errors"` and then overwritten. -/
theorem SubAggregation_last_write_wins_witness :
    KeysSorted fullBuilder.subAggregations ∧
      RangeOrder
        ((fullBuilder.SubAggregation "errors" (failingAgg "E1")).SubAggregation
          "errors" (maxAgg "depth"))
        [("errors", maxAgg "depth"), ("count", maxAgg "n")] ∧
      lookupEntry "errors"
        ((fullBuilder.SubAggregation "errors" (failingAgg "E1")).SubAggregation
          "errors" (maxAgg "depth")).subAggregations = some (maxAgg "depth") ∧
      (((fullBuilder.SubAggregation "errors" (failingAgg "E1")).SubAggregation
          "errors" (maxAgg "depth")).subAggregations.map Prod.fst).count "errors" = 1 :=
  have hthm := SubAggregation_last_write_wins fullBuilder "errors" (failingAgg "E1")
    (maxAgg "depth") [("errors", maxAgg "depth"), ("count", maxAgg "n")]
    (by decide) (List.Perm.swap _ _ _)
  ⟨by decide, List.Perm.swap _ _ _, hthm.2.1, hthm.2.2.1⟩

/-- C12. After `Filters(fs...)` the filter sequence is the old sequence followed
by `fs` in the order given; with no argument the call changes nothing; after
`Filter(f)` the sequence is the old one followed by `f`. No call can fail. -/
theorem Filters_appends (a : FiltersAggregation) (fs : List Query) (f : Query) :
    (a.Filters fs).filters = a.filters ++ fs ∧
      a.Filters [] = a ∧
      (a.Filters []).filters = a.filters ∧
      (a.Filter f).filters = a.filters ++ [f] := by
  refine ⟨?_, rfl, rfl, rfl⟩
  cases fs with
  | nil => simp [FiltersAggregation.Filters]
  | cons g rest => simp [FiltersAggregation.Filters]

/-- C13, as stated, fails: on a builder whose filter serializes and whose two
sub-aggregations fail with `E1` and `E2`, a call that ranges over `"errors"`
first returns `E1`, not the error `E2` of the stored `"count"`; a call that
ranges over `"count"` first returns `E2`, not the error `E1` of `"errors"`. -/
theorem Source_failing_aggregation_counterexample :
    (∀ f ∈ goodFilterTwoFailingAggs.filters, f.Source.2 = none) ∧
      ("count", failingAgg "E2") ∈ goodFilterTwoFailingAggs.subAggregations ∧
      ("errors", failingAgg "E1") ∈ goodFilterTwoFailingAggs.subAggregations ∧
      (failingAgg "E2").Source.2 = some "E2" ∧
      (failingAgg "E1").Source.2 = some "E1" ∧
      RangeOrder goodFilterTwoFailingAggs
        [("errors", failingAgg "E1"), ("count", failingAgg "E2")] ∧
      goodFilterTwoFailingAggs.Source
        [("errors", failingAgg "E1"), ("count", failingAgg "E2")] =
          (Value.null, some "E1") ∧
      (goodFilterTwoFailingAggs.Source
        [("errors", failingAgg "E1"), ("count", failingAgg "E2")]).2 ≠ some "E2" ∧
      RangeOrder goodFilterTwoFailingAggs
        [("count", failingAgg "E2"), ("errors", failingAgg "E1")] ∧
      goodFilterTwoFailingAggs.Source
        [("count", failingAgg "E2"), ("errors", failingAgg "E1")] =
          (Value.null, some "E2") ∧
      (goodFilterTwoFailingAggs.Source
        [("count", failingAgg "E2"), ("errors", failingAgg "E1")]).2 ≠ some "E1" := by
  have hfs : goodFilterTwoFailingAggs.filters = [termQuery "error"] := rfl
  have hes : goodFilterTwoFailingAggs.subAggregations =
      [("count", failingAgg "E2"), ("errors", failingAgg "E1")] := rfl
  refine ⟨?_, ?_, ?_, rfl, rfl, List.Perm.swap _ _ _, rfl, by decide, List.Perm.refl _, rfl,
    by decide⟩
  · intro f hf
    rw [hfs] at hf
    simp only [List.mem_singleton] at hf
    subst hf
    rfl
  · rw [hes]
    exact List.mem_cons_self _ _
  · rw [hes]
    exact List.mem_cons_of_mem _ (List.mem_cons_self _ _)

/-- C13, amended. On a builder whose filters all serialize: if a stored
sub-aggregation fails with error `E` and no stored sub-aggregation fails with
another error, then `Source` returns nil and exactly `E`, with no partial
mapping, whatever the order of the range and whether the other
sub-aggregations serialize or fail with `E` too. -/
theorem Source_failing_aggregation (a : FiltersAggregation)
    (order : List (String × Aggregation)) (e : String × Aggregation) (E : GoError)
    (horder : RangeOrder a order) (hF : ∀ f ∈ a.filters, f.Source.2 = none)
    (he : e ∈ a.subAggregations) (hE : e.2.Source.2 = some E)
    (hsame : ∀ e' ∈ a.subAggregations, e'.2.Source.2 = none ∨ e'.2.Source.2 = some E) :
    a.Source order = (Value.null, some E) := by
  have hne : a.subAggregations ≠ [] := List.ne_nil_of_mem he
  apply Source_of_agg_error (firstError_filters_none hF) hne
  apply firstError_of_all_same
  · exact ⟨e.2.Source, List.mem_map.mpr ⟨e, horder.mem_iff.mpr he, rfl⟩, hE⟩
  · intro r hr
    obtain ⟨e', he', rfl⟩ := List.mem_map.mp hr
    exact hsame e' (horder.mem_iff.mp he')

/-- C13 amended, at a builder whose `"errors"` fails and whose `"count"`
serializes, the range taking `"count"` first. -/
theorem Source_failing_aggregation_witness :
    RangeOrder oneFailingAgg [("count", maxAgg "n"), ("errors", failingAgg "E1")] ∧
      (∀ f ∈ oneFailingAgg.filters, f.Source.2 = none) ∧
      ("errors", failingAgg "E1") ∈ oneFailingAgg.subAggregations ∧
      (failingAgg "E1").Source.2 = some "E1" ∧
      (∀ e' ∈ oneFailingAgg.subAggregations,
        e'.2.Source.2 = none ∨ e'.2.Source.2 = some "E1") ∧
      oneFailingAgg.Source [("count", maxAgg "n"), ("errors", failingAgg "E1")] =
        (Value.null, some "E1") :=
  have hes : oneFailingAgg.subAggregations =
      [("count", maxAgg "n"), ("errors", failingAgg "E1")] := rfl
  have h2 : ∀ f ∈ oneFailingAgg.filters, f.Source.2 = none := by
    intro f hf
    have hfs : oneFailingAgg.filters = [termQuery "error"] := rfl
    rw [hfs] at hf
    simp only [List.mem_singleton] at hf
    subst hf
    rfl
  have h3 : ("errors", failingAgg "E1") ∈ oneFailingAgg.subAggregations := by
    rw [hes]
    exact List.mem_cons_of_mem _ (List.mem_cons_self _ _)
  have h5 : ∀ e' ∈ oneFailingAgg.subAggregations,
      e'.2.Source.2 = none ∨ e'.2.Source.2 = some "E1" := by
    intro e' he'
    rw [hes] at he'
    simp only [List.mem_cons, List.mem_singleton, List.not_mem_nil, or_false] at he'
    rcases he' with rfl | rfl
    · exact Or.inl rfl
    · exact Or.inr rfl
  ⟨List.Perm.refl _, h2, h3, rfl, h5,
    Source_failing_aggregation oneFailingAgg
      [("count", maxAgg "n"), ("errors", failingAgg "E1")] ("errors", failingAgg "E1") "E1"
      (List.Perm.refl _) h2 h3 rfl h5⟩

/-- C14. When `Source` succeeds, whatever sub-aggregations and metadata are
held: every top-level key of the output is `"filters"`, `"aggregations"` or
`"meta"`, and `"filters"` is always one of them; the value under `"filters"` is
the mapping with the single key `"filters"`, holding the array of the
serialized filters in insertion order, as long as the filter sequence (the
empty array when no filter is held). The output is this mapping itself, with
no name wrapped around it. -/
theorem Source_shape (a : FiltersAggregation) (order : List (String × Aggregation))
    (hok : (a.Source order).2 = none) :
    (∀ k ∈ (a.Source order).1.keys, k = "filters" ∨ k = "aggregations" ∨ k = "meta") ∧
      "filters" ∈ (a.Source order).1.keys ∧
      (a.Source order).1.get? "filters" =
        some (Value.obj [("filters", Value.arr (serializedFilters a.filters))]) ∧
      (serializedFilters a.filters).length = a.filters.length ∧
      (∀ (i : Nat) (f : Query), a.filters[i]? = some f →
        (serializedFilters a.filters)[i]? = some f.Source.1) ∧
      (a.filters = [] →
        (a.Source order).1.get? "filters" = some (Value.obj [("filters", Value.arr [])])) := by
  obtain ⟨source, hsrc, hfil, hkeys⟩ := Source_ok_shape hok
  have hget : (a.Source order).1.get? "filters" =
      some (Value.obj [("filters", Value.arr (serializedFilters a.filters))]) := by
    rw [hsrc]
    simp only [Value.get?]
    rw [lookupEntry_addMeta_of_ne a (by decide), hfil]
  refine ⟨?_, ?_, hget, by simp [serializedFilters], ?_, ?_⟩
  · intro k hk
    rw [hsrc] at hk
    rcases mem_keys_addMeta a k source hk with h | h
    · exact Or.inr (Or.inr h)
    · rcases hkeys k h with h' | h'
      · exact Or.inl h'
      · exact Or.inr (Or.inl h')
  · rw [hsrc] at hget ⊢
    exact mem_keys_of_lookupEntry hget
  · intro i f hi
    simp [serializedFilters, hi]
  · intro hnil
    rw [hget, hnil]
    rfl

/-- C14, at a builder with two filters, two sub-aggregations and metadata. -/
theorem Source_shape_witness :
    (fullBuilder.Source [("errors", maxAgg "level"), ("count", maxAgg "n")]).2 = none ∧
      (fullBuilder.Source [("errors", maxAgg "level"), ("count", maxAgg "n")]).1.keys =
        ["aggregations", "filters", "meta"] ∧
      (fullBuilder.Source [("errors", maxAgg "level"), ("count", maxAgg "n")]).1.get?
          "filters" =
        some (Value.obj [("filters", Value.arr
          [(termQuery "error").Source.1, (termQuery "warning").Source.1])]) :=
  ⟨rfl, rfl,
    (Source_shape fullBuilder [("errors", maxAgg "level"), ("count", maxAgg "n")]
      rfl).2.2.1⟩

/-- C15. Each mutator changes only its own part of the builder, the builder
it returns being the receiver after the call: `Filter` and `Filters` leave the
sub-aggregation mapping and the metadata as they were; `SubAggregation(n, a)`
leaves the filter sequence, the metadata and every entry under a name other
than `n` as they were; `Meta` leaves the filter sequence and the
sub-aggregation mapping as they were. -/
theorem mutators_frame (a : FiltersAggregation) (f : Query) (fs : List Query)
    (n : String) (agg : Aggregation) (m : Option (GoMap Value)) :
    (a.Filter f).subAggregations = a.subAggregations ∧
      (a.Filter f).meta = a.meta ∧
      (a.Filters fs).subAggregations = a.subAggregations ∧
      (a.Filters fs).meta = a.meta ∧
      (a.SubAggregation n agg).filters = a.filters ∧
      (a.SubAggregation n agg).meta = a.meta ∧
      (∀ n', n' ≠ n →
        lookupEntry n' (a.SubAggregation n agg).subAggregations =
          lookupEntry n' a.subAggregations) ∧
      (∀ e, e.1 ≠ n → (e ∈ (a.SubAggregation n agg).subAggregations ↔
        e ∈ a.subAggregations)) ∧
      (a.Meta m).filters = a.filters ∧
      (a.Meta m).subAggregations = a.subAggregations := by
  have hFs : (a.Filters fs).subAggregations = a.subAggregations ∧
      (a.Filters fs).meta = a.meta := by
    cases fs with
    | nil => simp [FiltersAggregation.Filters]
    | cons g rest => simp [FiltersAggregation.Filters]
  refine ⟨rfl, rfl, hFs.1, hFs.2, rfl, rfl, ?_, ?_, rfl, rfl⟩
  · intro n' hn'
    exact lookupEntry_insertEntry_of_ne hn' _ _
  · intro e he
    constructor
    · intro hmem
      rcases mem_insertEntry hmem with h | h
      · exact absurd (congrArg Prod.fst h) he
      · exact h
    · intro hmem
      exact mem_insertEntry_of_mem he hmem

end Elastic
